import Mathlib

/-!
Verification of the notu.ai meeting-capture bot against its specification.

The development shallowly embeds the relevant program logic:
* `src/extension/content.js` (second script in the file, the operative
  "comprehensive fix" version): caption processing (`processCaption`),
  the leave sequence (`leaveMeeting`), and the mutation-observer callback.
* `src/src/captionScraper.ts`: the `SegmentManager` class.
* `src/src/meetBot.ts`: `waitForExtensionJoin`, the join failure path,
  `handleCaption`, `handleCompletion`, and the `[Caption]` log-line parser.
* `src/src/sessionManager.ts`: `startSession` idempotence and
  `finalizeMeeting` deduplication.

Time is modelled as rational "elapsed seconds" passed explicitly where the
source reads the wall clock; JavaScript strings are modelled as Lean `String`
with character-list primitives mirroring the JS string methods used. The JS
whitespace class (`\s`, `trim`) is modelled by `Char.isWhitespace`
(space, tab, CR, LF), which covers the whitespace occurring in captions, and
JS `toLowerCase` by ASCII case mapping, which covers every string the
program compares case-insensitively.
-/

namespace NotuBot

/-- Model of JS `String.prototype.includes` on character lists: `needle`
occurs contiguously inside `hay`. -/
def containsSub (needle : List Char) : List Char → Bool
  | [] => needle.isEmpty
  | c :: t => needle.isPrefixOf (c :: t) || containsSub needle t

/-- JS `hay.includes(needle)`. -/
def jsIncludes (hay needle : String) : Bool :=
  containsSub needle.data hay.data

/-- JS `s.startsWith(pre)`. -/
def jsStartsWith (s pre : String) : Bool :=
  pre.data.isPrefixOf s.data

/-- JS `s.substring(0, n)`. -/
def jsSubstringTo (s : String) (n : Nat) : String :=
  ⟨s.data.take n⟩

/-- JS `s.toLowerCase()` (ASCII case mapping, which covers every string the
program compares case-insensitively). -/
def jsToLower (s : String) : String :=
  ⟨s.data.map Char.toLower⟩

/-- JS `s.trim()`: strip leading and trailing whitespace. -/
def jsTrim (s : String) : String :=
  ⟨((s.data.dropWhile Char.isWhitespace).reverse.dropWhile Char.isWhitespace).reverse⟩

/-- Case-insensitive equality, JS `a.toLowerCase() === b.toLowerCase()`. -/
def ciEq (a b : String) : Bool :=
  jsToLower a = jsToLower b

/-- Case-insensitive containment, modelling an unanchored `/i` regex
alternative. -/
def ciIncludes (hay needle : String) : Bool :=
  jsIncludes (jsToLower hay) (jsToLower needle)

/-- Case-insensitive "starts with", modelling a `/^.../i` regex. -/
def ciStarts (s pre : String) : Bool :=
  jsStartsWith (jsToLower s) (jsToLower pre)

/-- Word counter for `text.split(/\s+/).filter(w => w.length > 0).length`
(content.js line 1692): number of maximal nonempty whitespace-free runs.
The boolean argument records whether the previous character was inside a
word. -/
def wordCountAux : List Char → Bool → Nat
  | [], _ => 0
  | c :: t, inWord =>
    if c.isWhitespace then wordCountAux t false
    else (if inWord then 0 else 1) + wordCountAux t true

/-- JS word count of a string as computed by content.js line 1692. -/
def jsWordCount (s : String) : Nat :=
  wordCountAux s.data false

/-! ### Association lists modelling JS `Map`

`Map.prototype.set` on a fresh key appends in insertion order; on an existing
key it overwrites the value while keeping the key position. `values()`
iterates in insertion order. -/

/-- First value stored under key `k` (JS `Map.prototype.get`). -/
def lookupA {β : Type} : List (String × β) → String → Option β
  | [], _ => none
  | (k, v) :: t, s => if k = s then some v else lookupA t s

/-- Overwrite the value at key `k`, keeping its position (JS
`Map.prototype.set` on an existing key). -/
def updateA {β : Type} : List (String × β) → String → β → List (String × β)
  | [], _, _ => []
  | (k, v) :: t, s, w => if k = s then (k, w) :: t else (k, v) :: updateA t s w

/-- Remove the first entry with key `k` (JS `Map.prototype.delete`). -/
def removeA {β : Type} : List (String × β) → String → List (String × β)
  | [], _ => []
  | (k, v) :: t, s => if k = s then t else (k, v) :: removeA t s

/-! ### Session manager (`src/src/sessionManager.ts`) -/

/-- `BotSessionManager.finalizeMeeting` (sessionManager.ts lines 219-241).
State is the `finalizedMeetings` dedup set (as a list of meeting ids);
`backendOk` is whether the backend finalize POST succeeds. Returns the new
set and how many backend finalize calls were issued (0 or 1). On a
duplicate request the call is skipped; on delivery failure the meeting id is
removed from the set again so a retry can succeed. -/
def finalizeMeeting (finalized : List String) (meetingId : String)
    (backendOk : Bool) : List String × Nat :=
  if meetingId ∈ finalized then (finalized, 0)
  else
    -- `finalizedMeetings.add(meetingId)` followed by the POST; the catch
    -- branch runs `finalizedMeetings.delete(meetingId)`.
    if backendOk then (meetingId :: finalized, 1) else (finalized, 1)

/-- `BotSessionManager.startSession` (sessionManager.ts lines 62-71), up to
the point where the new `MeetBot` is registered. The registry maps meeting
ids to the bot's `sessionId`; `freshId` models the id the `MeetBot`
constructor would generate. Returns the new registry, the returned
session id, and how many bots/browser processes were created (0 or 1).
`sessions.set(meetingId, bot)` happens before `await bot.join()`, so a
second overlapping call observes the registered entry. -/
def startSession (sessions : List (String × String)) (meetingId : String)
    (freshId : String) : List (String × String) × String × Nat :=
  match lookupA sessions meetingId with
  | some sid => (sessions, sid, 0)
  | none => (sessions ++ [(meetingId, freshId)], freshId, 1)

/-! ### MeetBot orchestrator (`src/src/meetBot.ts`) -/

/-- Session lifecycle status (`BotStatus` in types, as used by meetBot.ts). -/
inductive BotStatus where
  | pending
  | joining
  | waiting_admission
  | in_meeting
  | recording
  | leaving
  | completed
  | failed
  deriving DecidableEq, Repr

/-- An orchestrator-side transcript segment (`Segment` in types:
speaker, text, start, end in elapsed seconds). -/
structure Segment where
  speaker : String
  text : String
  start : ℚ
  stop : ℚ
  deriving DecidableEq, Repr

/-- `MeetBot.waitForExtensionJoin` (meetBot.ts lines 376-402), discretised to
one status check per second of polling. `statusAt i` is `this.session.status`
at the `i`-th check (it is mutated concurrently by the extension message
handler); `timeoutPolls` is the timeout divided by the 1s poll interval.
Resolves `true` on `in_meeting`/`recording`, `false` on `failed` or once the
elapsed polls reach the timeout. The fuel argument bounds the recursion and
is chosen so the timeout check always fires first. -/
def wfejAux (statusAt : Nat → BotStatus) (timeoutPolls : Nat) :
    Nat → Nat → Bool
  | 0, _ => false
  | fuel + 1, i =>
    if statusAt i = .in_meeting ∨ statusAt i = .recording then true
    else if statusAt i = .failed then false
    else if timeoutPolls ≤ i then false
    else wfejAux statusAt timeoutPolls fuel (i + 1)

/-- Entry point of the admission-wait poll loop. -/
def waitForExtensionJoin (statusAt : Nat → BotStatus) (timeoutPolls : Nat) :
    Bool :=
  wfejAux statusAt timeoutPolls (timeoutPolls + 1) 0

/-- Events a `MeetBot` emits to the session manager (the `EventEmitter`
events wired up in `startSession`). -/
inductive BotEvt where
  | statusEvt (status : BotStatus)
  | captionEvt (seg : Segment)
  | flushEvt (segs : List Segment)
  | completedEvt (meetingId : String) (segs : List Segment)
  deriving DecidableEq, Repr

/-- Outcome of `MeetBot.join` (meetBot.ts lines 140-170) from the point the
bot starts waiting for admission: if `waitForExtensionJoin` resolves `false`
the code throws `Error('Extension failed to join meeting')`, whose message
the catch block stores via `setStatus('failed', error.message)`. Returns
the final status, the stored error, and the events emitted on this path. -/
def joinAdmissionOutcome (statusAt : Nat → BotStatus) (timeoutPolls : Nat) :
    BotStatus × Option String × List BotEvt :=
  if waitForExtensionJoin statusAt timeoutPolls then
    (.in_meeting, none, [.statusEvt .waiting_admission, .statusEvt .in_meeting])
  else
    (.failed, some "Extension failed to join meeting",
      [.statusEvt .waiting_admission, .statusEvt .failed])

/-- The session manager's reaction to a stream of bot events, counting
backend finalize calls: `finalizeMeeting` runs only from the `completed`
event handler (sessionManager.ts lines 98-125). -/
def finalizeCallsOfEvents (finalized : List String) : List BotEvt → Nat
  | [] => 0
  | .completedEvt m _ :: rest =>
    let r := finalizeMeeting finalized m true
    r.2 + finalizeCallsOfEvents r.1 rest
  | _ :: rest => finalizeCallsOfEvents finalized rest

/-- `MeetBot.handleCaption` (meetBot.ts lines 337-354): unconditionally
appends one segment with `start = end = timestamp / 1000` to the session
segment list and emits a `caption` event. Returns the new list and the
emitted events. -/
def handleCaption (segments : List Segment) (speaker text : String)
    (timestampMs : ℚ) : List Segment × List BotEvt :=
  let seg : Segment :=
    ⟨speaker, text, timestampMs / 1000, timestampMs / 1000⟩
  (segments ++ [seg], [.captionEvt seg])

/-- `MeetBot.handleCompletion` (meetBot.ts lines 309-332): replaces the
accumulated segment list wholesale when the `completed` payload carries a
non-empty segment list, otherwise keeps the accumulated list. Returns the
new list (the `completed` event then carries it). -/
def handleCompletion (segments : List Segment) (payload : List Segment) :
    List Segment :=
  if payload ≠ [] then
    payload.map (fun s => ⟨s.speaker, s.text, s.start, s.stop⟩)
  else segments

/-- Suffix of `l` after the first occurrence of `marker`, if any. -/
def afterSub (marker : List Char) : List Char → Option (List Char)
  | [] => if marker.isEmpty then some [] else none
  | c :: t =>
    if marker.isPrefixOf (c :: t) then some ((c :: t).drop marker.length)
    else afterSub marker t

/-- The `[Caption]` log-line parser of `MeetBot.parseExtensionLog`
(meetBot.ts lines 221-231), regex `\[Caption\]\s*(.+?):\s*(.+)` followed by
`.trim()` on both groups. Modelled as: after the first `[Caption]` marker,
skip whitespace, take the (nonempty) run up to the first colon as the
speaker, and the (nonempty after whitespace) remainder as the text. The
regex's backtracking corner cases (a colon-free speaker field, newlines) are
not exercised by the log lines the extension produces. -/
def parseCaptionLog (line : String) : Option (String × String) :=
  match afterSub "[Caption]".data line.data with
  | none => none
  | some rest =>
    let rest := rest.dropWhile Char.isWhitespace
    let before := rest.takeWhile (fun c => c ≠ ':')
    let after := rest.dropWhile (fun c => c ≠ ':')
    match after with
    | [] => none
    | _ :: afterColon =>
      let afterWs := afterColon.dropWhile Char.isWhitespace
      if before = [] ∨ afterWs = [] then none
      else some (jsTrim ⟨before⟩, jsTrim ⟨afterWs⟩)

/-- Segment effect of `MeetBot.parseExtensionLog` on a console line: when
the `[Caption]` pattern matches, the parsed speaker/text are handed to
`handleCaption` with `timestamp = Date.now() - startedAt`; otherwise the
segment list is untouched (the status-keyword branches never modify
segments). -/
def parseExtensionLogSegments (segments : List Segment) (line : String)
    (timestampMs : ℚ) : List Segment :=
  match parseCaptionLog line with
  | some (speaker, text) => (handleCaption segments speaker text timestampMs).1
  | none => segments

/-! ### Content-script caption pipeline (`src/extension/content.js`, second
script, lines 1635-1835) -/

/-- A segment as built by `processCaption` (content.js lines 1697-1704):
speaker, text, estimated start, end, monotone index, word count. `stop`
models the source's `end` field (a Lean keyword). -/
structure CJSegment where
  speaker : String
  text : String
  start : ℚ
  stop : ℚ
  index : Nat
  wordCount : Nat
  deriving DecidableEq, Repr

/-- Messages the extension emits via `sendMessage` (content.js lines
59-74), restricted to the fields the claims are about. The
`duration` field of `completed` (wall-clock at leave) is not modelled. -/
inductive CJMsg where
  | statusMsg (status reason : String)
  | captionMsg (seg : CJSegment)
  | completedMsg (reason : String) (segs : List CJSegment)
  deriving DecidableEq, Repr

/-- The extension `botState` (content.js lines 767-779) plus the
observable effects the claims quantify over: the outgoing message list, the
leave sequences whose asynchronous tail is still pending (a call to
`leaveMeeting` runs synchronously through the `finalSegments` snapshot at
line 1784 and suspends at the first `await`), and a counter of
`leaveMeeting` invocations. -/
structure CJState where
  isActive : Bool
  isInMeeting : Bool
  observerConnected : Bool
  flushTimerOn : Bool
  lastCaption : String
  segmentCount : Nat
  segments : List CJSegment
  activeSegments : List (String × CJSegment)
  outbox : List CJMsg
  pendingLeaves : List (String × List CJSegment)
  leaveCalls : Nat
  deriving DecidableEq, Repr

/-- Outcome of one `processCaption` call: early-return on a filter, exit
phrase detected (leave triggered), or fragment accepted. -/
inductive COutcome where
  | rejected
  | exitTriggered
  | accepted
  deriving DecidableEq, Repr

/-- `/^People\d*$/i` (content.js line 1655). -/
def isPeopleLabel (text : String) : Bool :=
  let l := (jsToLower text).data
  "people".data.isPrefixOf l && (l.drop 6).all Char.isDigit

/-- `/^[a-z_]+$/` (content.js line 1663, case sensitive): a nonempty run of
lowercase ASCII letters and underscores (an icon name). -/
def isIconName (text : String) : Bool :=
  !text.data.isEmpty && text.data.all (fun c => c.isLower || c = '_')

/-- `/^.{0,2}$/` (content.js line 1666): at most two characters, none of
which is a line break. -/
def isTinyText (text : String) : Bool :=
  text.data.length ≤ 2 && text.data.all (fun c => c ≠ '\n')

/-- The `UI_PATTERNS` filter of `processCaption` (content.js lines
1643-1671), each regex translated to the string test it performs. -/
def uiPatternTest (text : String) : Bool :=
  ciIncludes text "you left the meeting" || ciIncludes text "return to home screen" ||
  ciIncludes text "leave call" || ciIncludes text "feedback" ||
  ciIncludes text "audio and video" || ciIncludes text "learn more" ||
  ciIncludes text "anda telah keluar" || ciIncludes text "You\x27ve left" ||
  ciEq text "Meeting details" ||
  ciEq text "Share screen" ||
  ciEq text "Send a reaction" ||
  ciStarts text "Turn on captions" ||
  ciStarts text "Raise hand" ||
  ciEq text "Chat with everyone" ||
  ciEq text "Meeting tools" ||
  ciEq text "Call ends soon" ||
  ciEq text "More options" ||
  isPeopleLabel text ||
  ciEq text "Meeting timer" ||
  ciEq text "Hand raises" ||
  ciIncludes text "This call is open to anyone" ||
  ciEq text "info" || ciEq text "chat" || ciEq text "apps" ||
  ciEq text "alarm" || ciEq text "mood" || ciEq text "meeting_room" ||
  ciEq text "computer_arrow_up" || ciEq text "computer_arrow_down" ||
  ciEq text "back_hand" || ciEq text "closed_caption" ||
  ciEq text "closed_caption_off" ||
  ciEq text "arrow_drop_down" || ciEq text "chat_bubble" || ciEq text "epg-" ||
  isIconName text ||
  ciStarts text "Press Down Arrow" ||
  ciIncludes text "hover tray" || ciIncludes text "Escape to close" ||
  isTinyText text ||
  ciEq text "Notu AI" ||
  ciIncludes text "Indonesian" || ciIncludes text "English"

/-- `EXIT_PHRASES` (content.js lines 738-749). -/
def exitPhrases : List String :=
  ["notetaker, please leave", "note taker, please leave",
   "bot, please leave", "notu, please leave",
   "notu silahkan keluar", "notu keluar", "notu out", "notu exit",
   "bot keluar", "bot silahkan keluar"]

/-- Exit-phrase detection (content.js lines 1680-1681):
`text.toLowerCase()` contains one of the phrases. -/
def exitPhraseHit (text : String) : Bool :=
  exitPhrases.any (fun p => jsIncludes (jsToLower text) p)

/-- `segments ++ active segment values` — the `finalSegments` snapshot
taken synchronously by `leaveMeeting` (content.js lines 1781-1784) and the
payload of the `completed` message it sends. -/
def finalSegmentsCJ (st : CJState) : List CJSegment :=
  st.segments ++ st.activeSegments.map Prod.snd

/-- Synchronous prefix of `leaveMeeting(reason)` (content.js lines
1769-1784): emit the `leaving` status, disconnect the caption observer,
clear the flush timer, and snapshot `finalSegments`; the function then
suspends at the first `await` inside the leave-button loop, leaving the
completion emission pending. There is no guard flag anywhere in the
function. -/
def leaveMeetingStart (st : CJState) (reason : String) : CJState :=
  { st with
    outbox := st.outbox ++ [.statusMsg "leaving" reason],
    observerConnected := false,
    flushTimerOn := false,
    pendingLeaves := st.pendingLeaves ++ [(reason, finalSegmentsCJ st)],
    leaveCalls := st.leaveCalls + 1 }

/-- Asynchronous tails of the pending `leaveMeeting` calls (content.js
lines 1786-1820), run in call order once the synchronous mutation callback
has returned: each sends its `completed` message with the snapshot it took
and clears the activity flags. -/
def runPendingLeaves (st : CJState) : CJState :=
  st.pendingLeaves.foldl
    (fun s p =>
      { s with
        outbox := s.outbox ++ [.completedMsg p.1 p.2],
        isActive := false,
        isInMeeting := false })
    { st with pendingLeaves := [] }

/-- The segment-management step of `processCaption` (content.js lines
1708-1721) on the active-segment map: when the speaker has an active
segment and the new text starts with the first 20 characters of the active
text, update that segment in place (text, end, word count; start and index
kept); otherwise push the active segment to the finalized list and replace
the entry with the fresh candidate segment; a speaker without an active
segment gets a fresh entry in insertion order. Returns the segments to
append to the finalized list and the new active map. -/
def acceptMerge (active : List (String × CJSegment)) (speaker text : String)
    (segment : CJSegment) : List CJSegment × List (String × CJSegment) :=
  match lookupA active speaker with
  | some existing =>
    if jsStartsWith text (jsSubstringTo existing.text 20) then
      let merged : CJSegment :=
        { existing with
          text := text,
          stop := segment.stop,
          wordCount := segment.wordCount }
      ([], updateA active speaker merged)
    else ([existing], updateA active speaker segment)
  | none => ([], active ++ [(speaker, segment)])

/-- The candidate segment built by `processCaption` (content.js lines
1691-1704): start is an estimate `wordCount / 2.5` seconds back (at least
1s, clamped at 0), end is the current elapsed time, the index is the
post-increment `segmentCount`. -/
def candidateSegment (st : CJState) (speaker text : String) (elapsed : ℚ) :
    CJSegment :=
  let wordCount := jsWordCount text
  let estimatedDuration : ℚ := max 1 ((wordCount : ℚ) / (5 / 2))
  ⟨speaker, text, max 0 (elapsed - estimatedDuration), elapsed,
   st.segmentCount + 1, wordCount⟩

/-- The accepted-fragment tail of `processCaption` (content.js lines
1687-1723): update `lastCaption` and `segmentCount`, build the candidate
segment, merge it via `acceptMerge`, and send the candidate segment as the
`caption` message. -/
def acceptCaption (st : CJState) (speaker text : String) (elapsed : ℚ) :
    CJState :=
  let segment := candidateSegment st speaker text elapsed
  let upd := acceptMerge st.activeSegments speaker text segment
  { st with
    lastCaption := text,
    segmentCount := st.segmentCount + 1,
    segments := st.segments ++ upd.1,
    activeSegments := upd.2,
    outbox := st.outbox ++ [.captionMsg segment] }

/-- `processCaption` (content.js lines 1635-1724) with the `trim` from
`getText` (line 1632) folded in; the speaker string is taken as input (its
DOM resolution by `getSpeaker` is outside the embedding). The filter
cascade is in source order: empty-or-duplicate text, text identical to the
speaker label, UI patterns, unresolved speaker with short text, exit
phrases, and finally acceptance. -/
def processCaption (st : CJState) (speaker rawText : String) (elapsed : ℚ) :
    CJState × COutcome :=
  let text := jsTrim rawText
  if text = "" ∨ text = st.lastCaption then (st, .rejected)
  else if jsToLower text = jsToLower speaker then (st, .rejected)
  else if uiPatternTest text then (st, .rejected)
  else if speaker = "Unknown Speaker" ∧ text.length < 10 then (st, .rejected)
  else if exitPhraseHit text then
    (leaveMeetingStart st "exit_phrase", .exitTriggered)
  else (acceptCaption st speaker text elapsed, .accepted)

/-- One batch of `MutationObserver` notifications (content.js lines
1727-1738): `processCaption` runs synchronously once per notification, then
any leave sequences started during the batch run their asynchronous tails. -/
def observerCallback (st : CJState) (notes : List (String × String × ℚ)) :
    CJState :=
  runPendingLeaves
    (notes.foldl (fun s n => (processCaption s n.1 n.2.1 n.2.2).1) st)

/-- Successive accepted captions without a leave (the recording phase). -/
def runCaptions (st : CJState) (notes : List (String × String × ℚ)) :
    CJState :=
  notes.foldl (fun s n => (processCaption s n.1 n.2.1 n.2.2).1) st

/-- Number of `completed` messages in the outbox. -/
def countCompleted (st : CJState) : Nat :=
  st.outbox.countP (fun m =>
    match m with
    | .completedMsg _ _ => true
    | _ => false)

/-- The extension state right after `runBot` reaches the recording phase
(content.js lines 1889, 1921, 1937-1939): active, in meeting, observer and
flush timer running, no captured state yet. -/
def recordingInit : CJState :=
  { isActive := true
    isInMeeting := true
    observerConnected := true
    flushTimerOn := true
    lastCaption := ""
    segmentCount := 0
    segments := []
    activeSegments := []
    outbox := []
    pendingLeaves := []
    leaveCalls := 0 }

/-- `processCaption` over a list of observations, defined only when every
observation is accepted (passes all filters and contains no exit phrase) —
the premise of the per-speaker aggregation property. -/
def acceptedRun (st : CJState) :
    List (String × String × ℚ) → Option CJState
  | [] => some st
  | n :: rest =>
    match processCaption st n.1 n.2.1 n.2.2 with
    | (st1, .accepted) => acceptedRun st1 rest
    | _ => none

/-- The observations attributed to one speaker, in order. -/
def obsFor (s : String) (notes : List (String × String × ℚ)) :
    List (String × String × ℚ) :=
  notes.filter (fun n => n.1 = s)

/-- `b` strictly extends `a`: `a` is a proper prefix of `b`. -/
def strictExtend (a b : String) : Prop :=
  a.data <+: b.data ∧ a ≠ b

instance strictExtend.instDecidable : DecidableRel strictExtend :=
  fun a b => inferInstanceAs (Decidable (a.data <+: b.data ∧ a ≠ b))

/-- The texts against which the next fragment of a speaker is compared:
the active segment's current text, if any. -/
def textsOf : Option CJSegment → List String
  | none => []
  | some seg => [seg.text]

/-- How the active-segment entry of one speaker evolves across that
speaker's accepted observations when each of them takes the merge-or-create
path: the entry keeps its speaker, start (and, when it existed before, its
estimated start), carries the last observed text, and ends at the last
observation time. -/
def cjTrackRel (cur : Option CJSegment)
    (l : List (String × String × ℚ)) (res : Option CJSegment) : Prop :=
  match l, cur with
  | [], cur => res = cur
  | n :: t, some seg =>
    ∃ g, res = some g ∧ g.speaker = seg.speaker ∧ g.start = seg.start ∧
      g.text = ((n :: t).map (fun x => x.2.1)).getLastD "" ∧
      g.stop = ((n :: t).map (fun x => x.2.2)).getLastD 0
  | n :: t, none =>
    ∃ g, res = some g ∧ g.speaker = n.1 ∧
      g.start = max 0 (n.2.2 - max 1 ((jsWordCount n.2.1 : ℚ) / (5 / 2))) ∧
      g.text = ((n :: t).map (fun x => x.2.1)).getLastD "" ∧
      g.stop = ((n :: t).map (fun x => x.2.2)).getLastD 0

/-- Well-formedness of an active-segment map: keys are distinct and each
value's speaker is its key. Holds for the empty map and is preserved by
every operation the program performs on it. -/
def WFa {β : Type} (spk : β → String) (l : List (String × β)) : Prop :=
  (l.map Prod.fst).Nodup ∧ ∀ p ∈ l, spk p.2 = p.1

/-! ### SegmentManager (`src/src/captionScraper.ts` lines 171-266) -/

/-- A `SegmentManager` segment: speaker, text, start and end elapsed
seconds (`stop` models the source field `end`). -/
structure SMSegment where
  speaker : String
  text : String
  start : ℚ
  stop : ℚ
  deriving DecidableEq, Repr

/-- `SegmentManager` state: the finalized `segments` list, the
`activeSegments` map (insertion-ordered, as a JS `Map`), and the
`flushedCount` boundary. The `startTime` baseline is implicit: methods take
elapsed seconds directly where the source computes
`(Date.now() - this.startTime) / 1000`. -/
structure SMState where
  segments : List SMSegment
  activeSegments : List (String × SMSegment)
  flushedCount : Nat
  deriving DecidableEq, Repr

/-- A fresh `SegmentManager` (constructor, lines 178-180). -/
def smInit : SMState := ⟨[], [], 0⟩

/-- `SegmentManager.addCaption` (lines 185-205): update the speaker's
active segment in place (text and end; start kept), or open a new active
segment with `start = end = elapsed`. -/
def addCaption (st : SMState) (speaker text : String) (elapsed : ℚ) :
    SMState :=
  match lookupA st.activeSegments speaker with
  | some seg =>
    { st with
      activeSegments := updateA st.activeSegments speaker
        { seg with text := text, stop := elapsed } }
  | none =>
    { st with
      activeSegments :=
        st.activeSegments ++ [(speaker, ⟨speaker, text, elapsed, elapsed⟩)] }

/-- `SegmentManager.finalizeSegment` (lines 210-218): push a copy of the
speaker's active segment to the finalized list and drop the active entry. -/
def finalizeSegment (st : SMState) (speaker : String) : SMState :=
  match lookupA st.activeSegments speaker with
  | some seg =>
    { st with
      segments := st.segments ++ [seg],
      activeSegments := removeA st.activeSegments speaker }
  | none => st

/-- `SegmentManager.getSegmentsForFlush` (lines 223-229): the finalized
segments past the flushed boundary followed by snapshots of all active
segments. -/
def getSegmentsForFlush (st : SMState) : List SMSegment :=
  st.segments.drop st.flushedCount ++ st.activeSegments.map Prod.snd

/-- `SegmentManager.markFlushed` (lines 234-241): move all active segments
to the finalized list, advance the flushed boundary to cover everything,
and clear the active map. -/
def markFlushed (st : SMState) : SMState :=
  let segments := st.segments ++ st.activeSegments.map Prod.snd
  { segments := segments,
    activeSegments := [],
    flushedCount := segments.length }

/-- `SegmentManager.getAllSegments` (lines 246-251). -/
def getAllSegments (st : SMState) : List SMSegment :=
  st.segments ++ st.activeSegments.map Prod.snd

/-- The `SegmentManager` calls that can run between two flush boundaries:
`addCaption` (a caption observation at a given elapsed time) and
`finalizeSegment`. -/
inductive SMOp where
  | add (speaker text : String) (elapsed : ℚ)
  | fin (speaker : String)
  deriving DecidableEq, Repr

/-- Apply one `SegmentManager` call. -/
def applySMOp (st : SMState) : SMOp → SMState
  | .add speaker text elapsed => addCaption st speaker text elapsed
  | .fin speaker => finalizeSegment st speaker

/-- Apply a sequence of `SegmentManager` calls. -/
def runSMOps (st : SMState) (ops : List SMOp) : SMState :=
  ops.foldl applySMOp st

/-- Run a sequence of caption observations through `addCaption`. -/
def runSMCaptions (st : SMState) (notes : List (String × String × ℚ)) :
    SMState :=
  notes.foldl (fun s n => addCaption s n.1 n.2.1 n.2.2) st

/-- One observation's effect on the active-segment entry of speaker `s`
under `addCaption`: update text and end in place, or open a fresh segment
with `start = end = elapsed`. -/
def smStepTrack (s : String) (cur : Option SMSegment)
    (n : String × String × ℚ) : Option SMSegment :=
  if n.1 = s then
    match cur with
    | some seg => some { seg with text := n.2.1, stop := n.2.2 }
    | none => some ⟨s, n.2.1, n.2.2, n.2.2⟩
  else cur

/-- The active-segment entry of speaker `s` after a run of observations. -/
def smTrack (s : String) (cur : Option SMSegment)
    (notes : List (String × String × ℚ)) : Option SMSegment :=
  notes.foldl (smStepTrack s) cur

/-! ### Association list lemmas -/

@[simp] lemma lookupA_nil {β : Type} (s : String) :
    lookupA ([] : List (String × β)) s = none := rfl

@[simp] lemma lookupA_cons {β : Type} (k : String) (v : β)
    (t : List (String × β)) (s : String) :
    lookupA ((k, v) :: t) s = if k = s then some v else lookupA t s := rfl

lemma lookupA_append_self {β : Type} (l : List (String × β)) (m : String)
    (v : β) (h : lookupA l m = none) : lookupA (l ++ [(m, v)]) m = some v := by
  induction l with
  | nil => simp
  | cons p t ih =>
    obtain ⟨k, w⟩ := p
    by_cases hk : k = m
    · rw [lookupA_cons, if_pos hk] at h
      exact absurd h (by simp)
    · rw [lookupA_cons, if_neg hk] at h
      rw [List.cons_append, lookupA_cons, if_neg hk]
      exact ih h

/-! ### Claim theorems: session registry -/

/-- C3: delivering the same completed event for a meetingId twice yields
exactly one backend finalize call while the first finalize succeeds; and a
failed finalize removes the meetingId from the dedup set so a later
duplicate completion retries the call. -/
theorem c3_finalize_idempotent (finalized : List String) (m : String)
    (h : m ∉ finalized) :
    ((finalizeMeeting finalized m true).2 = 1 ∧
      (finalizeMeeting (finalizeMeeting finalized m true).1 m true).2 = 0) ∧
    ((finalizeMeeting finalized m false).2 = 1 ∧
      m ∉ (finalizeMeeting finalized m false).1 ∧
      (finalizeMeeting (finalizeMeeting finalized m false).1 m true).2 = 1) := by
  simp [finalizeMeeting, h]

theorem c3_finalize_idempotent_witness :
    ("meet-1" : String) ∉ ([] : List String) ∧
    ((finalizeMeeting [] "meet-1" true).2 = 1 ∧
      (finalizeMeeting (finalizeMeeting [] "meet-1" true).1 "meet-1" true).2 = 0) ∧
    ((finalizeMeeting [] "meet-1" false).2 = 1 ∧
      "meet-1" ∉ (finalizeMeeting [] "meet-1" false).1 ∧
      (finalizeMeeting (finalizeMeeting [] "meet-1" false).1 "meet-1" true).2 = 1) :=
  ⟨by simp, c3_finalize_idempotent [] "meet-1" (by simp)⟩

/-- C4: `startSession` is idempotent on the meetingId key. For a registry
with no session for `m`, the first call registers the bot (before its join
completes, since `sessions.set` precedes `await bot.join()`) and returns the
fresh session id; a second call with the same meetingId returns the same
session id, leaves the registry unchanged, and creates no second bot. -/
theorem c4_startSession_idempotent (sessions : List (String × String))
    (m f1 f2 : String) (h : lookupA sessions m = none) :
    startSession (startSession sessions m f1).1 m f2
      = ((startSession sessions m f1).1, f1, 0) ∧
    (startSession sessions m f1).2.1 = f1 ∧
    (startSession sessions m f1).2.2 = 1 := by
  have h1 : startSession sessions m f1 = (sessions ++ [(m, f1)], f1, 1) := by
    unfold startSession
    rw [h]
  have h2 : startSession (sessions ++ [(m, f1)]) m f2
      = (sessions ++ [(m, f1)], f1, 0) := by
    unfold startSession
    rw [lookupA_append_self sessions m f1 h]
  rw [h1]
  exact ⟨h2, rfl, rfl⟩

theorem c4_startSession_idempotent_witness :
    lookupA [("other", "bot_1")] "meet-1" = none ∧
    startSession (startSession [("other", "bot_1")] "meet-1" "bot_2").1
        "meet-1" "bot_3"
      = ((startSession [("other", "bot_1")] "meet-1" "bot_2").1, "bot_2", 0) ∧
    (startSession [("other", "bot_1")] "meet-1" "bot_2").2.1 = "bot_2" ∧
    (startSession [("other", "bot_1")] "meet-1" "bot_2").2.2 = 1 :=
  ⟨by decide,
    c4_startSession_idempotent [("other", "bot_1")] "meet-1" "bot_2" "bot_3"
      (by decide)⟩

/-! ### Claim theorems: join timeout (C5) -/

lemma wfejAux_stuck_waiting (statusAt : Nat → BotStatus) (timeoutPolls : Nat)
    (h : ∀ i, statusAt i = .waiting_admission) :
    ∀ fuel i, wfejAux statusAt timeoutPolls fuel i = false := by
  intro fuel
  induction fuel with
  | zero => intro i; rfl
  | succ n ih =>
    intro i
    simp only [wfejAux, h i]
    split
    · rename_i hcontra
      rcases hcontra with hc | hc <;> exact absurd hc (by simp)
    · split
      · rfl
      · split
        · rfl
        · exact ih (i + 1)

/-- C5 counterexample: an admission wait that never resolves (every poll
still sees `waiting_admission`, timeout 120 polls of 1s as configured in
meetBot.ts line 142) does transition the session to `failed` and makes no
finalize call, but the stored reason is the fixed string
"Extension failed to join meeting", which does not mention timeout —
refuting the claim that the failure reason mentions timeout. -/
theorem c5_counterexample :
    (joinAdmissionOutcome (fun _ => .waiting_admission) 120).1 = .failed ∧
    (joinAdmissionOutcome (fun _ => .waiting_admission) 120).2.1
      = some "Extension failed to join meeting" ∧
    ciIncludes "Extension failed to join meeting" "timeout" = false := by
  have hw : waitForExtensionJoin (fun _ => .waiting_admission) 120 = false :=
    wfejAux_stuck_waiting _ _ (fun _ => rfl) _ _
  refine ⟨?_, ?_, by decide⟩ <;>
    simp [joinAdmissionOutcome, hw]

/-- C5 amended: a join whose admission wait never resolves within the
timeout transitions the session to `failed` with the descriptive reason
"Extension failed to join meeting" (a fixed string that does not mention
timeout), and no backend finalize call is made for that session. -/
theorem c5_join_timeout_failed (statusAt : Nat → BotStatus)
    (timeoutPolls : Nat) (h : ∀ i, statusAt i = .waiting_admission) :
    (joinAdmissionOutcome statusAt timeoutPolls).1 = .failed ∧
    (joinAdmissionOutcome statusAt timeoutPolls).2.1
      = some "Extension failed to join meeting" ∧
    ciIncludes "Extension failed to join meeting" "timeout" = false ∧
    finalizeCallsOfEvents [] (joinAdmissionOutcome statusAt timeoutPolls).2.2
      = 0 := by
  have hw : waitForExtensionJoin statusAt timeoutPolls = false :=
    wfejAux_stuck_waiting _ _ h _ _
  refine ⟨?_, ?_, by decide, ?_⟩ <;>
    simp [joinAdmissionOutcome, hw, finalizeCallsOfEvents]

theorem c5_join_timeout_failed_witness :
    (∀ i : Nat, (fun _ : Nat => BotStatus.waiting_admission) i
      = BotStatus.waiting_admission) ∧
    ((joinAdmissionOutcome (fun _ => .waiting_admission) 3).1 = .failed ∧
     (joinAdmissionOutcome (fun _ => .waiting_admission) 3).2.1
        = some "Extension failed to join meeting" ∧
     ciIncludes "Extension failed to join meeting" "timeout" = false ∧
     finalizeCallsOfEvents []
        (joinAdmissionOutcome (fun _ => .waiting_admission) 3).2.2 = 0) :=
  ⟨fun _ => rfl, c5_join_timeout_failed (fun _ => .waiting_admission) 3
    (fun _ => rfl)⟩

/-! ### Claim theorems: orchestrator caption accumulation (C10) -/

/-- C10: the orchestrator performs no merging or deduplication of caption
events — `handleCaption` (also when reached through a parsed `[Caption]`
log line) unconditionally appends one segment with `start = end`, and the
accumulated list is replaced wholesale exactly when a completed payload
carries a non-empty segment list. -/
theorem c10_orchestrator_append_only :
    (∀ (segments : List Segment) (speaker text : String) (ts : ℚ),
      handleCaption segments speaker text ts
        = (segments ++ [⟨speaker, text, ts / 1000, ts / 1000⟩],
           [.captionEvt ⟨speaker, text, ts / 1000, ts / 1000⟩])) ∧
    (∀ (segments : List Segment) (line : String) (ts : ℚ)
        (speaker text : String),
      parseCaptionLog line = some (speaker, text) →
      parseExtensionLogSegments segments line ts
        = segments ++ [⟨speaker, text, ts / 1000, ts / 1000⟩]) ∧
    (∀ (segments payload : List Segment), payload ≠ [] →
      handleCompletion segments payload
        = payload.map (fun s => ⟨s.speaker, s.text, s.start, s.stop⟩)) ∧
    (∀ segments : List Segment, handleCompletion segments [] = segments) := by
  refine ⟨fun _ _ _ _ => rfl, fun segments line ts speaker text hp => ?_,
    fun _ payload hp => ?_, fun _ => rfl⟩
  · simp [parseExtensionLogSegments, hp, handleCaption]
  · simp [handleCompletion, hp]

/-! ### Claim theorems: leave-sequence reentrancy (C2) -/

set_option maxHeartbeats 2000000 in
/-- C2 counterexample: an exit phrase inside an accepted fragment observed
via two overlapping mutation notifications does not trigger exactly one
leave sequence and one completed emission — `leaveMeeting` has no guard
flag and the exit-phrase path returns before `lastCaption` is updated, so
both notifications fire the full leave sequence. -/
theorem c2_counterexample :
    ¬(countCompleted (observerCallback recordingInit
        [("Alice", "okay bot, please leave", 100),
         ("Alice", "okay bot, please leave", 100)]) = 1 ∧
      (observerCallback recordingInit
        [("Alice", "okay bot, please leave", 100),
         ("Alice", "okay bot, please leave", 100)]).leaveCalls = 1) := by
  with_unfolding_all decide

/-- C2 amended: the agent's leave sequence is not guarded against
re-entry — every trigger invocation executes it in full. In particular any
fragment that passes the filters and contains an exit phrase, observed via
two overlapping mutation notifications from a fresh recording state,
invokes `leaveMeeting` twice and emits two completed messages (the
exit-phrase path returns before `lastCaption` is updated, so the duplicate
notification is not suppressed). -/
theorem c2_leave_not_guarded (sp t : String) (e1 e2 : ℚ)
    (ht : jsTrim t = t) (hne : ¬(t = ""))
    (hsp : ¬(jsToLower t = jsToLower sp))
    (hui : ¬(uiPatternTest t = true))
    (hun : ¬(sp = "Unknown Speaker" ∧ t.length < 10))
    (hexit : exitPhraseHit t = true) :
    (observerCallback recordingInit [(sp, t, e1), (sp, t, e2)]).leaveCalls
      = 2 ∧
    countCompleted (observerCallback recordingInit [(sp, t, e1), (sp, t, e2)])
      = 2 := by
  have key : ∀ (st : CJState) (e : ℚ), st.lastCaption = "" →
      processCaption st sp t e
        = (leaveMeetingStart st "exit_phrase", .exitTriggered) := by
    intro st e hlc
    simp only [processCaption, ht, hlc]
    rw [if_neg (by simp [hne]), if_neg hsp, if_neg hui, if_neg hun,
      if_pos hexit]
  have s1 := key recordingInit e1 rfl
  have s2 := key (leaveMeetingStart recordingInit "exit_phrase") e2 rfl
  simp only [observerCallback, List.foldl, s1, s2]
  exact ⟨rfl, rfl⟩

set_option maxHeartbeats 2000000 in
theorem c2_leave_not_guarded_witness :
    (jsTrim "okay bot, please leave" = "okay bot, please leave" ∧
      ¬("okay bot, please leave" = "") ∧
      ¬(jsToLower "okay bot, please leave" = jsToLower "Alice") ∧
      ¬(uiPatternTest "okay bot, please leave" = true) ∧
      ¬("Alice" = "Unknown Speaker" ∧
        ("okay bot, please leave" : String).length < 10) ∧
      exitPhraseHit "okay bot, please leave" = true) ∧
    ((observerCallback recordingInit
        [("Alice", "okay bot, please leave", 100),
         ("Alice", "okay bot, please leave", 200)]).leaveCalls = 2 ∧
      countCompleted (observerCallback recordingInit
        [("Alice", "okay bot, please leave", 100),
         ("Alice", "okay bot, please leave", 200)]) = 2) :=
  ⟨⟨by decide, by decide, by decide, by decide, by decide, by decide⟩,
    c2_leave_not_guarded "Alice" "okay bot, please leave" 100 200
      (by decide) (by decide) (by decide) (by decide) (by decide) (by decide)⟩

/-! ### Claim theorems: the Alice/Bob scenario (C7) -/

set_option maxHeartbeats 2000000 in
/-- C7: for observations ("Alice","Hi there"), ("Alice","Hi there,
everyone"), ("Bob","Good morning") followed by session end, the final
segment sequence delivered at leave is exactly Alice's merged segment
followed by Bob's, in that order, for any observation times. -/
theorem c7_scenario (t1 t2 t3 : ℚ) :
    ((finalSegmentsCJ (runCaptions recordingInit
        [("Alice", "Hi there", t1), ("Alice", "Hi there, everyone", t2),
         ("Bob", "Good morning", t3)])).map
      (fun g => (g.speaker, g.text)))
      = [("Alice", "Hi there, everyone"), ("Bob", "Good morning")] := by
  with_unfolding_all rfl

/-! ### Claim theorems: duplicate suppression (C8) -/

lemma acceptCaption_lastCaption (st : CJState) (sp text : String) (e : ℚ) :
    (acceptCaption st sp text e).lastCaption = text := rfl

lemma processCaption_accepted_lastCaption (st st2 : CJState)
    (sp raw : String) (e : ℚ)
    (h : processCaption st sp raw e = (st2, .accepted)) :
    st2.lastCaption = jsTrim raw := by
  simp only [processCaption] at h
  split at h
  · simp at h
  · split at h
    · simp at h
    · split at h
      · simp at h
      · split at h
        · simp at h
        · split at h
          · simp at h
          · simp only [Prod.mk.injEq] at h
            rw [← h.1]
            exact acceptCaption_lastCaption ..

/-- C8: duplicate suppression is keyed on the single last-seen text, not on
the speaker — an observation whose text equals the text of the immediately
preceding accepted observation is a complete no-op (state unchanged, no
message emitted), even when the speakers differ. -/
theorem c8_duplicate_suppression (st st2 : CJState) (sp1 sp2 raw : String)
    (e1 e2 : ℚ) (h : processCaption st sp1 raw e1 = (st2, .accepted)) :
    processCaption st2 sp2 raw e2 = (st2, .rejected) := by
  have hlc := processCaption_accepted_lastCaption st st2 sp1 raw e1 h
  simp only [processCaption]
  rw [if_pos (Or.inr hlc.symm)]

set_option maxHeartbeats 2000000 in
theorem c8_duplicate_suppression_witness :
    processCaption
        (processCaption recordingInit "Alice" "Good morning" 1).1
        "Bob" "Good morning" 2
      = ((processCaption recordingInit "Alice" "Good morning" 1).1,
         .rejected) :=
  c8_duplicate_suppression recordingInit
    (processCaption recordingInit "Alice" "Good morning" 1).1
    "Alice" "Bob" "Good morning" 1 2 (by with_unfolding_all decide)

/-! ### Claim theorems: fragment rejection filters (C9) -/

/-- C9: a fragment whose (trimmed) text is empty or whitespace-only, or
case-insensitively identical to the speaker label, or whose speaker is
unresolved ("Unknown Speaker") with text shorter than the 10-character
minimum, is rejected by `processCaption`: the state (segments, active
segments, lastCaption, segmentCount, outbox) is unchanged and no message is
emitted. -/
theorem c9_fragment_filters (st : CJState) (sp raw : String) (e : ℚ)
    (h : jsTrim raw = "" ∨ jsToLower (jsTrim raw) = jsToLower sp ∨
      (sp = "Unknown Speaker" ∧ (jsTrim raw).length < 10)) :
    processCaption st sp raw e = (st, .rejected) := by
  simp only [processCaption]
  rcases h with h1 | h2 | h3
  · rw [if_pos (Or.inl h1)]
  · by_cases c1 : (jsTrim raw = "" ∨ jsTrim raw = st.lastCaption)
    · rw [if_pos c1]
    · rw [if_neg c1, if_pos h2]
  · by_cases c1 : (jsTrim raw = "" ∨ jsTrim raw = st.lastCaption)
    · rw [if_pos c1]
    · rw [if_neg c1]
      by_cases c2 : jsToLower (jsTrim raw) = jsToLower sp
      · rw [if_pos c2]
      · rw [if_neg c2]
        by_cases c3 : uiPatternTest (jsTrim raw) = true
        · rw [if_pos c3]
        · rw [if_neg c3, if_pos h3]

theorem c9_fragment_filters_witness :
    (jsTrim "  \t " = "" ∨ jsToLower (jsTrim "  \t ") = jsToLower "Alice" ∨
      ("Alice" = "Unknown Speaker" ∧ (jsTrim "  \t ").length < 10)) ∧
    processCaption recordingInit "Alice" "  \t " 1
      = (recordingInit, .rejected) ∧
    processCaption recordingInit "Alice" " aLiCe " 1
      = (recordingInit, .rejected) ∧
    processCaption recordingInit "Unknown Speaker" "punten 31" 1
      = (recordingInit, .rejected) :=
  ⟨Or.inl (by decide),
    c9_fragment_filters recordingInit "Alice" "  \t " 1 (Or.inl (by decide)),
    c9_fragment_filters recordingInit "Alice" " aLiCe " 1
      (Or.inr (Or.inl (by decide))),
    c9_fragment_filters recordingInit "Unknown Speaker" "punten 31" 1
      (Or.inr (Or.inr (by decide)))⟩

/-! ### Claim theorems: counterexamples on aggregation details (C1, C6) -/

set_option maxHeartbeats 2000000 in
/-- C1 counterexample: for the single accepted observation
("Alice", "hello world") at elapsed time 10s, `processCaption` records the
finalized segment with `start = 9` — the estimated start
`max(0, 10 - max(1, 2/2.5))` — not the elapsed time 10 of the first
observation, refuting the start clause of the claim for the content-script
aggregator. -/
theorem c1_counterexample :
    ((finalSegmentsCJ (runCaptions recordingInit
        [("Alice", "hello world", 10)])).map (fun g => (g.speaker, g.start)))
      = [("Alice", 9)] ∧ (9 : ℚ) ≠ 10 := by
  with_unfolding_all decide

set_option maxHeartbeats 2000000 in
/-- C6 counterexample: `addCaption` rewrites an active segment in place, so
a record returned by an earlier `getSegmentsForFlush` (here Alice's segment
with text "Hi") need not appear in a later snapshot taken after a further
caption, even with no intervening `markFlushed` — refuting the
record-level growing-superset clause of the claim. -/
theorem c6_counterexample :
    (⟨"A", "Hi", 0, 0⟩ : SMSegment)
        ∈ getSegmentsForFlush (addCaption smInit "A" "Hi" 0) ∧
    (⟨"A", "Hi", 0, 0⟩ : SMSegment)
        ∉ getSegmentsForFlush
          (addCaption (addCaption smInit "A" "Hi" 0) "A" "Hi there" 1) := by
  with_unfolding_all decide

/-! ### Claim theorems: flush non-destructiveness (C6 amended) -/

lemma lookupA_mem {β : Type} (l : List (String × β)) (k : String) (u : β)
    (h : lookupA l k = some u) : (k, u) ∈ l := by
  induction l with
  | nil => simp at h
  | cons p t ih =>
    obtain ⟨k0, v0⟩ := p
    rw [lookupA_cons] at h
    by_cases hk : k0 = k
    · rw [if_pos hk] at h
      injection h with h2
      subst hk; subst h2
      exact List.mem_cons_self _ _
    · rw [if_neg hk] at h
      exact List.mem_cons_of_mem _ (ih h)

lemma mem_updateA {β : Type} (l : List (String × β)) (k : String) (w : β) :
    ∀ q ∈ updateA l k w, q ∈ l ∨ q = (k, w) := by
  induction l with
  | nil => intro q hq; simp [updateA] at hq
  | cons p t ih =>
    obtain ⟨k0, v0⟩ := p
    intro q hq
    by_cases hk : k0 = k
    · simp only [updateA, if_pos hk] at hq
      rcases List.mem_cons.mp hq with h | h
      · subst hk; exact Or.inr h
      · exact Or.inl (List.mem_cons_of_mem _ h)
    · simp only [updateA, if_neg hk] at hq
      rcases List.mem_cons.mp hq with h | h
      · exact Or.inl (h ▸ List.mem_cons_self _ _)
      · rcases ih q h with h2 | h2
        · exact Or.inl (List.mem_cons_of_mem _ h2)
        · exact Or.inr h2

lemma mem_updateA_or {β : Type} (l : List (String × β)) (k : String) (w : β) :
    ∀ p ∈ l, p ∈ updateA l k w ∨ (p.1 = k ∧ lookupA l k = some p.2) := by
  induction l with
  | nil => intro p hp; simp at hp
  | cons q t ih =>
    obtain ⟨k0, v0⟩ := q
    intro p hp
    by_cases hk : k0 = k
    · rcases List.mem_cons.mp hp with h | h
      · subst h
        exact Or.inr ⟨hk, by rw [lookupA_cons, if_pos hk]⟩
      · refine Or.inl ?_
        simp only [updateA, if_pos hk]
        exact List.mem_cons_of_mem _ h
    · rcases List.mem_cons.mp hp with h | h
      · refine Or.inl ?_
        simp only [updateA, if_neg hk]
        exact h ▸ List.mem_cons_self _ _
      · rcases ih p h with h2 | h2
        · refine Or.inl ?_
          simp only [updateA, if_neg hk]
          exact List.mem_cons_of_mem _ h2
        · exact Or.inr ⟨h2.1, by rw [lookupA_cons, if_neg hk]; exact h2.2⟩

lemma updateA_mem_self {β : Type} (l : List (String × β)) (k : String)
    (w u : β) (h : lookupA l k = some u) : (k, w) ∈ updateA l k w := by
  induction l with
  | nil => simp at h
  | cons p t ih =>
    obtain ⟨k0, v0⟩ := p
    by_cases hk : k0 = k
    · simp only [updateA, if_pos hk]
      exact hk ▸ List.mem_cons_self _ _
    · rw [lookupA_cons, if_neg hk] at h
      simp only [updateA, if_neg hk]
      exact List.mem_cons_of_mem _ (ih h)

lemma removeA_subset {β : Type} (l : List (String × β)) (k : String) :
    ∀ q ∈ removeA l k, q ∈ l := by
  induction l with
  | nil => intro q hq; simp [removeA] at hq
  | cons p t ih =>
    obtain ⟨k0, v0⟩ := p
    intro q hq
    by_cases hk : k0 = k
    · simp only [removeA, if_pos hk] at hq
      exact List.mem_cons_of_mem _ hq
    · simp only [removeA, if_neg hk] at hq
      rcases List.mem_cons.mp hq with h | h
      · exact h ▸ List.mem_cons_self _ _
      · exact List.mem_cons_of_mem _ (ih q h)

lemma mem_removeA_or {β : Type} (l : List (String × β)) (k : String) :
    ∀ p ∈ l, p ∈ removeA l k ∨ (p.1 = k ∧ lookupA l k = some p.2) := by
  induction l with
  | nil => intro p hp; simp at hp
  | cons q t ih =>
    obtain ⟨k0, v0⟩ := q
    intro p hp
    by_cases hk : k0 = k
    · rcases List.mem_cons.mp hp with h | h
      · subst h
        exact Or.inr ⟨hk, by rw [lookupA_cons, if_pos hk]⟩
      · refine Or.inl ?_
        simp only [removeA, if_pos hk]
        exact h
    · rcases List.mem_cons.mp hp with h | h
      · refine Or.inl ?_
        simp only [removeA, if_neg hk]
        exact h ▸ List.mem_cons_self _ _
      · rcases ih p h with h2 | h2
        · refine Or.inl ?_
          simp only [removeA, if_neg hk]
          exact List.mem_cons_of_mem _ h2
        · exact Or.inr ⟨h2.1, by rw [lookupA_cons, if_neg hk]; exact h2.2⟩

lemma mem_drop_append_left {α : Type} {l l2 : List α} {n : Nat} {g : α}
    (h : g ∈ l.drop n) : g ∈ (l ++ l2).drop n := by
  rw [List.drop_append_eq_append_drop]
  exact List.mem_append_left _ h

lemma drop_append_singleton {α : Type} (l : List α) (x : α) (n : Nat)
    (h : n ≤ l.length) : (l ++ [x]).drop n = l.drop n ++ [x] := by
  rw [List.drop_append_eq_append_drop, Nat.sub_eq_zero_of_le h, List.drop]

@[simp] lemma applySMOp_add (st : SMState) (sp tx : String) (e : ℚ) :
    applySMOp st (.add sp tx e) = addCaption st sp tx e := rfl

@[simp] lemma applySMOp_fin (st : SMState) (sp : String) :
    applySMOp st (.fin sp) = finalizeSegment st sp := rfl

lemma addCaption_some (st : SMState) (sp tx : String) (e : ℚ) (u : SMSegment)
    (hl : lookupA st.activeSegments sp = some u) :
    addCaption st sp tx e
      = { st with
          activeSegments :=
            updateA st.activeSegments sp { u with text := tx, stop := e } }
      := by
  unfold addCaption
  rw [hl]

lemma addCaption_none (st : SMState) (sp tx : String) (e : ℚ)
    (hl : lookupA st.activeSegments sp = none) :
    addCaption st sp tx e
      = { st with
          activeSegments := st.activeSegments ++ [(sp, ⟨sp, tx, e, e⟩)] }
      := by
  unfold addCaption
  rw [hl]

lemma finalizeSegment_some (st : SMState) (sp : String) (seg : SMSegment)
    (hl : lookupA st.activeSegments sp = some seg) :
    finalizeSegment st sp
      = { st with
          segments := st.segments ++ [seg],
          activeSegments := removeA st.activeSegments sp }
      := by
  unfold finalizeSegment
  rw [hl]

lemma finalizeSegment_none (st : SMState) (sp : String)
    (hl : lookupA st.activeSegments sp = none) :
    finalizeSegment st sp = st := by
  unfold finalizeSegment
  rw [hl]

lemma smInv_step (st : SMState) (op : SMOp)
    (h : st.flushedCount ≤ st.segments.length) :
    (applySMOp st op).flushedCount ≤ (applySMOp st op).segments.length := by
  cases op with
  | add sp tx e =>
    rw [applySMOp_add]
    cases hl : lookupA st.activeSegments sp with
    | some u => rw [addCaption_some st sp tx e u hl]; exact h
    | none => rw [addCaption_none st sp tx e hl]; exact h
  | fin sp =>
    rw [applySMOp_fin]
    cases hl : lookupA st.activeSegments sp with
    | none => rw [finalizeSegment_none st sp hl]; exact h
    | some seg =>
      rw [finalizeSegment_some st sp seg hl]
      simp only [List.length_append, List.length_cons, List.length_nil]
      omega

lemma snapshot_step_represent (st : SMState) (op : SMOp)
    (hinv : st.flushedCount ≤ st.segments.length) :
    ∀ g ∈ getSegmentsForFlush st,
      ∃ g' ∈ getSegmentsForFlush (applySMOp st op),
        g'.speaker = g.speaker ∧ g'.start = g.start := by
  intro g hg
  rcases List.mem_append.mp hg with hseg | hact
  · -- already-finalized unflushed segments persist: `segments` only grows
    -- and `flushedCount` is untouched by add/finalize
    refine ⟨g, ?_, rfl, rfl⟩
    cases op with
    | add sp tx e =>
      rw [applySMOp_add]
      cases hl : lookupA st.activeSegments sp with
      | some u =>
        rw [addCaption_some st sp tx e u hl]
        exact List.mem_append_left _ hseg
      | none =>
        rw [addCaption_none st sp tx e hl]
        exact List.mem_append_left _ hseg
    | fin sp =>
      rw [applySMOp_fin]
      cases hl : lookupA st.activeSegments sp with
      | none =>
        rw [finalizeSegment_none st sp hl]
        exact List.mem_append_left _ hseg
      | some seg =>
        rw [finalizeSegment_some st sp seg hl]
        exact List.mem_append_left _ (mem_drop_append_left hseg)
  · obtain ⟨p, hp, hpeq⟩ := List.mem_map.mp hact
    cases op with
    | add sp tx e =>
      rw [applySMOp_add]
      cases hl : lookupA st.activeSegments sp with
      | none =>
        rw [addCaption_none st sp tx e hl]
        refine ⟨g, List.mem_append_right _ ?_, rfl, rfl⟩
        exact List.mem_map.mpr ⟨p, List.mem_append_left _ hp, hpeq⟩
      | some u =>
        rw [addCaption_some st sp tx e u hl]
        rcases mem_updateA_or st.activeSegments sp
            { u with text := tx, stop := e } p hp with hin | ⟨hk, hlook⟩
        · refine ⟨g, List.mem_append_right _ ?_, rfl, rfl⟩
          exact List.mem_map.mpr ⟨p, hin, hpeq⟩
        · have hpu : p.2 = u := by
            rw [hl] at hlook
            exact (Option.some.inj hlook).symm
          refine ⟨{ u with text := tx, stop := e },
            List.mem_append_right _ ?_, ?_, ?_⟩
          · exact List.mem_map.mpr
              ⟨(sp, { u with text := tx, stop := e }),
                updateA_mem_self _ _ _ u hl, rfl⟩
          · rw [← hpeq, hpu]
          · rw [← hpeq, hpu]
    | fin sp =>
      rw [applySMOp_fin]
      cases hl : lookupA st.activeSegments sp with
      | none =>
        rw [finalizeSegment_none st sp hl]
        exact ⟨g, List.mem_append_right _
          (List.mem_map.mpr ⟨p, hp, hpeq⟩), rfl, rfl⟩
      | some seg =>
        rw [finalizeSegment_some st sp seg hl]
        rcases mem_removeA_or st.activeSegments sp p hp with hin | ⟨hk, hlook⟩
        · refine ⟨g, List.mem_append_right _ ?_, rfl, rfl⟩
          exact List.mem_map.mpr ⟨p, hin, hpeq⟩
        · have hpseg : p.2 = seg := by
            rw [hl] at hlook
            exact (Option.some.inj hlook).symm
          -- the removed active segment reappears at the end of `segments`,
          -- past the flushed boundary
          refine ⟨seg, List.mem_append_left _ ?_, ?_, ?_⟩
          · rw [drop_append_singleton _ _ _ hinv]
            exact List.mem_append_right _ (List.mem_singleton.mpr rfl)
          · rw [← hpeq, hpseg]
          · rw [← hpeq, hpseg]

lemma snapshot_runOps_represent (ops : List SMOp) :
    ∀ (st : SMState), st.flushedCount ≤ st.segments.length →
      ∀ g ∈ getSegmentsForFlush st,
        ∃ g' ∈ getSegmentsForFlush (runSMOps st ops),
          g'.speaker = g.speaker ∧ g'.start = g.start := by
  induction ops with
  | nil => exact fun st _ g hg => ⟨g, hg, rfl, rfl⟩
  | cons op rest ih =>
    intro st hinv g hg
    obtain ⟨g1, hg1, hsp, hst⟩ := snapshot_step_represent st op hinv g hg
    obtain ⟨g', hg', hsp', hst'⟩ :=
      ih (applySMOp st op) (smInv_step st op hinv) g1 hg1
    exact ⟨g', hg', by rw [hsp', hsp], by rw [hst', hst]⟩

lemma snapshot_step_bound (st : SMState) (op : SMOp) (T : ℚ)
    (hst : ∀ g ∈ getSegmentsForFlush st, T < g.start)
    (hop : ∀ sp tx e, op = SMOp.add sp tx e → T < e) :
    ∀ g' ∈ getSegmentsForFlush (applySMOp st op), T < g'.start := by
  intro g' hg'
  cases op with
  | add sp tx e =>
    rw [applySMOp_add] at hg'
    cases hl : lookupA st.activeSegments sp with
    | none =>
      rw [addCaption_none st sp tx e hl] at hg'
      rcases List.mem_append.mp hg' with hseg | hact
      · exact hst g' (List.mem_append_left _ hseg)
      · obtain ⟨p, hp, hpeq⟩ := List.mem_map.mp hact
        rcases List.mem_append.mp hp with hin | hnew
        · exact hst g' (List.mem_append_right _
            (List.mem_map.mpr ⟨p, hin, hpeq⟩))
        · have hpe : p = (sp, ⟨sp, tx, e, e⟩) := List.mem_singleton.mp hnew
          rw [← hpeq, hpe]
          exact hop sp tx e rfl
    | some u =>
      rw [addCaption_some st sp tx e u hl] at hg'
      rcases List.mem_append.mp hg' with hseg | hact
      · exact hst g' (List.mem_append_left _ hseg)
      · obtain ⟨p, hp, hpeq⟩ := List.mem_map.mp hact
        rcases mem_updateA st.activeSegments sp
            { u with text := tx, stop := e } p hp with hin | hw
        · exact hst g' (List.mem_append_right _
            (List.mem_map.mpr ⟨p, hin, hpeq⟩))
        · have hu : T < u.start :=
            hst u (List.mem_append_right _
              (List.mem_map.mpr ⟨(sp, u), lookupA_mem _ _ _ hl, rfl⟩))
          rw [← hpeq, hw]
          exact hu
  | fin sp =>
    rw [applySMOp_fin] at hg'
    cases hl : lookupA st.activeSegments sp with
    | none =>
      rw [finalizeSegment_none st sp hl] at hg'
      exact hst g' hg'
    | some seg =>
      rw [finalizeSegment_some st sp seg hl] at hg'
      rcases List.mem_append.mp hg' with hseg | hact
      · rw [List.drop_append_eq_append_drop] at hseg
        rcases List.mem_append.mp hseg with hold | hnew
        · exact hst g' (List.mem_append_left _ hold)
        · have hgs : g' = seg :=
            List.mem_singleton.mp (List.drop_subset _ _ hnew)
          rw [hgs]
          exact hst seg (List.mem_append_right _
            (List.mem_map.mpr ⟨(sp, seg), lookupA_mem _ _ _ hl, rfl⟩))
      · obtain ⟨p, hp, hpeq⟩ := List.mem_map.mp hact
        exact hst g' (List.mem_append_right _
          (List.mem_map.mpr ⟨p, removeA_subset _ _ p hp, hpeq⟩))

lemma snapshot_runOps_bound (ops : List SMOp) :
    ∀ (st : SMState) (T : ℚ),
      (∀ g ∈ getSegmentsForFlush st, T < g.start) →
      (∀ sp tx e, SMOp.add sp tx e ∈ ops → T < e) →
      ∀ g' ∈ getSegmentsForFlush (runSMOps st ops), T < g'.start := by
  induction ops with
  | nil => exact fun st T hst _ g' hg' => hst g' hg'
  | cons op rest ih =>
    intro st T hst hops g' hg'
    exact ih (applySMOp st op) T
      (snapshot_step_bound st op T hst
        (fun sp tx e he => hops sp tx e (he ▸ List.mem_cons_self _ _)))
      (fun sp tx e he => hops sp tx e (List.mem_cons_of_mem _ he))
      g' hg'

lemma snapshot_markFlushed (st : SMState) :
    getSegmentsForFlush (markFlushed st) = [] := by
  simp [getSegmentsForFlush, markFlushed, List.drop_length]

/-- C6 amended. Part one: without an intervening `markFlushed`, every
segment returned by an earlier `getSegmentsForFlush` keeps a representative
with the same speaker and start in every later snapshot under further
`addCaption`/`finalizeSegment` calls, for any state whose flushed boundary
is within the finalized list (full records need not persist because
`addCaption` rewrites an active segment's text and end in place). Part two:
after `markFlushed`, provided later observation times are strictly greater
than the starts of the flushed records, a subsequent `getSegmentsForFlush`
returns no record that was already flushed. -/
theorem c6_flush_nondestructive :
    (∀ (st : SMState) (ops : List SMOp),
      st.flushedCount ≤ st.segments.length →
      ∀ g ∈ getSegmentsForFlush st,
        ∃ g' ∈ getSegmentsForFlush (runSMOps st ops),
          g'.speaker = g.speaker ∧ g'.start = g.start) ∧
    (∀ (st : SMState) (ops : List SMOp) (T : ℚ),
      (∀ g ∈ getSegmentsForFlush st, g.start ≤ T) →
      (∀ sp tx e, SMOp.add sp tx e ∈ ops → T < e) →
      ∀ g' ∈ getSegmentsForFlush (runSMOps (markFlushed st) ops),
        g' ∉ getSegmentsForFlush st) := by
  constructor
  · exact fun st ops hinv g hg => snapshot_runOps_represent ops st hinv g hg
  · intro st ops T hle hops g' hg' hmem
    have hbase : ∀ g ∈ getSegmentsForFlush (markFlushed st), T < g.start := by
      rw [snapshot_markFlushed]
      intro g hg
      simp at hg
    have := snapshot_runOps_bound ops (markFlushed st) T hbase hops g' hg'
    exact absurd (hle g' hmem) (not_le.mpr this)

set_option maxHeartbeats 2000000 in
theorem c6_flush_nondestructive_witness :
    ((addCaption smInit "A" "Hi" 0).flushedCount
        ≤ (addCaption smInit "A" "Hi" 0).segments.length ∧
      (⟨"A", "Hi", 0, 0⟩ : SMSegment)
        ∈ getSegmentsForFlush (addCaption smInit "A" "Hi" 0) ∧
      ∃ g' ∈ getSegmentsForFlush
          (runSMOps (addCaption smInit "A" "Hi" 0)
            [.add "A" "Hi there" 1]),
        g'.speaker = (⟨"A", "Hi", 0, 0⟩ : SMSegment).speaker ∧
        g'.start = (⟨"A", "Hi", 0, 0⟩ : SMSegment).start) ∧
    ((∀ g ∈ getSegmentsForFlush (addCaption smInit "A" "Hi" 0),
        g.start ≤ (1 : ℚ)) ∧
      ∀ g' ∈ getSegmentsForFlush
          (runSMOps (markFlushed (addCaption smInit "A" "Hi" 0))
            [.add "A" "Hi ya" 5]),
        g' ∉ getSegmentsForFlush (addCaption smInit "A" "Hi" 0)) := by
  have hops : ∀ sp tx e,
      SMOp.add sp tx e ∈ [SMOp.add "A" "Hi ya" (5 : ℚ)] → (1 : ℚ) < e := by
    intro sp tx e h
    rw [List.mem_singleton] at h
    injection h with h1 h2 h3
    subst h3
    with_unfolding_all decide
  refine ⟨⟨by with_unfolding_all decide, by with_unfolding_all decide, ?_⟩,
    ⟨by with_unfolding_all decide, ?_⟩⟩
  · exact c6_flush_nondestructive.1 (addCaption smInit "A" "Hi" 0)
      [.add "A" "Hi there" 1] (by with_unfolding_all decide)
      ⟨"A", "Hi", 0, 0⟩ (by with_unfolding_all decide)
  · exact c6_flush_nondestructive.2 (addCaption smInit "A" "Hi" 0)
      [.add "A" "Hi ya" 5] 1 (by with_unfolding_all decide) hops

/-! ### Per-speaker aggregation (C1 amended): association-map lemmas -/

lemma lookupA_updateA_self {β : Type} (l : List (String × β)) (k : String)
    (w u : β) (h : lookupA l k = some u) :
    lookupA (updateA l k w) k = some w := by
  induction l with
  | nil => simp at h
  | cons p t ih =>
    obtain ⟨k0, v0⟩ := p
    by_cases hk : k0 = k
    · simp [updateA, if_pos hk, lookupA_cons, hk]
    · rw [lookupA_cons, if_neg hk] at h
      simp only [updateA, if_neg hk, lookupA_cons]
      exact ih h

lemma lookupA_updateA_ne {β : Type} (l : List (String × β)) (k s : String)
    (w : β) (h : ¬(s = k)) : lookupA (updateA l k w) s = lookupA l s := by
  induction l with
  | nil => rfl
  | cons p t ih =>
    obtain ⟨k0, v0⟩ := p
    by_cases hk : k0 = k
    · have hk0s : ¬(k0 = s) := fun he => h (he.symm.trans hk)
      simp only [updateA, if_pos hk, lookupA_cons]
      rw [if_neg hk0s, if_neg hk0s]
    · simp only [updateA, if_neg hk, lookupA_cons]
      by_cases hk0 : k0 = s
      · rw [if_pos hk0, if_pos hk0]
      · rw [if_neg hk0, if_neg hk0]
        exact ih

lemma lookupA_append_ne {β : Type} (l : List (String × β)) (k s : String)
    (v : β) (h : ¬(s = k)) : lookupA (l ++ [(k, v)]) s = lookupA l s := by
  induction l with
  | nil =>
    simp only [List.nil_append, lookupA_cons, lookupA_nil]
    rw [if_neg fun he => h he.symm]
  | cons p t ih =>
    obtain ⟨k0, v0⟩ := p
    simp only [List.cons_append, lookupA_cons]
    by_cases hk0 : k0 = s
    · rw [if_pos hk0, if_pos hk0]
    · rw [if_neg hk0, if_neg hk0]
      exact ih

@[simp] lemma obsFor_nil (s : String) : obsFor s [] = [] := rfl

lemma obsFor_cons_self {s : String} {n : String × String × ℚ}
    (t : List (String × String × ℚ)) (h : n.1 = s) :
    obsFor s (n :: t) = n :: obsFor s t := by
  simp [obsFor, List.filter_cons, h]

lemma obsFor_cons_ne {s : String} {n : String × String × ℚ}
    (t : List (String × String × ℚ)) (h : ¬(n.1 = s)) :
    obsFor s (n :: t) = obsFor s t := by
  simp [obsFor, List.filter_cons, h]

lemma obsFor_keys {s : String} {notes : List (String × String × ℚ)} :
    ∀ x ∈ obsFor s notes, x.1 = s := by
  intro x hx
  have := List.of_mem_filter hx
  simpa using this

lemma wfa_nil {β : Type} (spk : β → String) : WFa spk [] := by
  constructor
  · simp
  · intro p hp
    simp at hp

lemma wfa_tail {β : Type} {spk : β → String} {p : String × β}
    {t : List (String × β)} (h : WFa spk (p :: t)) : WFa spk t := by
  have h1 := h.1
  rw [List.map_cons] at h1
  exact ⟨(List.nodup_cons.mp h1).2,
    fun q hq => h.2 q (List.mem_cons_of_mem _ hq)⟩

lemma wfa_head_not_mem {β : Type} {spk : β → String} {p : String × β}
    {t : List (String × β)} (h : WFa spk (p :: t)) :
    p.1 ∉ t.map Prod.fst := by
  have h1 := h.1
  rw [List.map_cons] at h1
  exact (List.nodup_cons.mp h1).1

lemma updateA_keys {β : Type} (l : List (String × β)) (k : String) (w : β) :
    (updateA l k w).map Prod.fst = l.map Prod.fst := by
  induction l with
  | nil => rfl
  | cons p t ih =>
    obtain ⟨k0, v0⟩ := p
    by_cases hk : k0 = k
    · simp only [updateA, if_pos hk, List.map_cons]
    · simp only [updateA, if_neg hk, List.map_cons]
      rw [ih]

lemma lookupA_eq_none_iff {β : Type} (l : List (String × β)) (k : String) :
    lookupA l k = none ↔ k ∉ l.map Prod.fst := by
  induction l with
  | nil => simp
  | cons p t ih =>
    obtain ⟨k0, v0⟩ := p
    rw [lookupA_cons]
    by_cases hk : k0 = k
    · rw [if_pos hk]
      simp [hk]
    · rw [if_neg hk]
      simp only [List.map_cons, List.mem_cons]
      rw [ih]
      constructor
      · intro hn hc
        rcases hc with hc | hc
        · exact hk hc.symm
        · exact hn hc
      · intro hn
        exact fun hc => hn (Or.inr hc)

lemma wfa_updateA {β : Type} {spk : β → String} {l : List (String × β)}
    {k : String} {w : β} (h : WFa spk l) (hw : spk w = k) :
    WFa spk (updateA l k w) := by
  constructor
  · rw [updateA_keys]
    exact h.1
  · intro p hp
    rcases mem_updateA l k w p hp with hin | hpe
    · exact h.2 p hin
    · rw [hpe]
      exact hw

lemma wfa_append {β : Type} {spk : β → String} {l : List (String × β)}
    {k : String} {v : β} (h : WFa spk l) (hl : lookupA l k = none)
    (hv : spk v = k) : WFa spk (l ++ [(k, v)]) := by
  constructor
  · rw [List.map_append, List.nodup_append]
    refine ⟨h.1, List.nodup_singleton _, ?_⟩
    intro a ha hb
    simp only [List.map_cons, List.map_nil, List.mem_singleton] at hb
    exact (lookupA_eq_none_iff l k).mp hl (hb ▸ ha)
  · intro p hp
    rcases List.mem_append.mp hp with hin | hone
    · exact h.2 p hin
    · rw [List.mem_singleton.mp hone]
      exact hv

lemma wfa_filter_none {β : Type} {spk : β → String} :
    ∀ (l : List (String × β)) (s : String), WFa spk l →
      lookupA l s = none →
      (l.map Prod.snd).filter (fun g => spk g = s) = [] := by
  intro l
  induction l with
  | nil => intro s _ _; rfl
  | cons p t ih =>
    obtain ⟨k0, v0⟩ := p
    intro s hwf hl
    rw [lookupA_cons] at hl
    by_cases hk : k0 = s
    · rw [if_pos hk] at hl
      exact absurd hl (by simp)
    · rw [if_neg hk] at hl
      have hv0 : ¬(spk v0 = s) := by
        rw [hwf.2 (k0, v0) (List.mem_cons_self _ _)]
        exact hk
      simp only [List.map_cons, List.filter_cons]
      rw [if_neg (by simpa using hv0)]
      exact ih s (wfa_tail hwf) hl

lemma wfa_filter_some {β : Type} {spk : β → String} :
    ∀ (l : List (String × β)) (s : String) (v : β), WFa spk l →
      lookupA l s = some v →
      (l.map Prod.snd).filter (fun g => spk g = s) = [v] := by
  intro l
  induction l with
  | nil => intro s v _ hl; simp at hl
  | cons p t ih =>
    obtain ⟨k0, v0⟩ := p
    intro s v hwf hl
    rw [lookupA_cons] at hl
    by_cases hk : k0 = s
    · rw [if_pos hk] at hl
      have hv : v0 = v := Option.some.inj hl
      have hv0 : spk v0 = s := by
        rw [hwf.2 (k0, v0) (List.mem_cons_self _ _)]
        exact hk
      have hnone : lookupA t s = none := by
        rw [lookupA_eq_none_iff]
        intro hc
        exact wfa_head_not_mem hwf (hk ▸ hc)
      simp only [List.map_cons, List.filter_cons]
      rw [if_pos (by simpa using hv0),
        wfa_filter_none t s (wfa_tail hwf) hnone, hv]
    · rw [if_neg hk] at hl
      have hv0 : ¬(spk v0 = s) := by
        rw [hwf.2 (k0, v0) (List.mem_cons_self _ _)]
        exact hk
      simp only [List.map_cons, List.filter_cons]
      rw [if_neg (by simpa using hv0)]
      exact ih s v (wfa_tail hwf) hl

/-! ### Per-speaker aggregation (C1 amended): SegmentManager evolution -/

lemma addCaption_lookup (st : SMState) (sp tx : String) (e : ℚ) (s : String) :
    lookupA (addCaption st sp tx e).activeSegments s
      = smStepTrack s (lookupA st.activeSegments s) (sp, tx, e) := by
  by_cases hsp : sp = s
  · subst hsp
    cases hl : lookupA st.activeSegments sp with
    | some u =>
      rw [addCaption_some st sp tx e u hl]
      dsimp only
      rw [lookupA_updateA_self st.activeSegments sp _ u hl]
      simp [smStepTrack]
    | none =>
      rw [addCaption_none st sp tx e hl]
      dsimp only
      rw [lookupA_append_self st.activeSegments sp _ hl]
      simp [smStepTrack]
  · have hns : ¬(s = sp) := fun he => hsp he.symm
    cases hl : lookupA st.activeSegments sp with
    | some u =>
      rw [addCaption_some st sp tx e u hl]
      dsimp only
      rw [lookupA_updateA_ne st.activeSegments sp s _ hns]
      simp [smStepTrack, hsp]
    | none =>
      rw [addCaption_none st sp tx e hl]
      dsimp only
      rw [lookupA_append_ne st.activeSegments sp s _ hns]
      simp [smStepTrack, hsp]

lemma addCaption_segments (st : SMState) (sp tx : String) (e : ℚ) :
    (addCaption st sp tx e).segments = st.segments := by
  cases hl : lookupA st.activeSegments sp with
  | some u => rw [addCaption_some st sp tx e u hl]
  | none => rw [addCaption_none st sp tx e hl]

lemma addCaption_wfa (st : SMState) (sp tx : String) (e : ℚ)
    (h : WFa (fun g : SMSegment => g.speaker) st.activeSegments) :
    WFa (fun g : SMSegment => g.speaker)
      (addCaption st sp tx e).activeSegments := by
  cases hl : lookupA st.activeSegments sp with
  | some u =>
    rw [addCaption_some st sp tx e u hl]
    dsimp only
    exact wfa_updateA h (h.2 (sp, u) (lookupA_mem _ _ _ hl))
  | none =>
    rw [addCaption_none st sp tx e hl]
    dsimp only
    exact wfa_append h hl rfl

lemma runSMCaptions_cons (st : SMState) (n : String × String × ℚ)
    (t : List (String × String × ℚ)) :
    runSMCaptions st (n :: t)
      = runSMCaptions (addCaption st n.1 n.2.1 n.2.2) t := rfl

lemma runSMCaptions_segments :
    ∀ (notes : List (String × String × ℚ)) (st : SMState),
      (runSMCaptions st notes).segments = st.segments := by
  intro notes
  induction notes with
  | nil => intro st; rfl
  | cons n t ih =>
    intro st
    rw [runSMCaptions_cons, ih, addCaption_segments]

lemma runSMCaptions_wfa :
    ∀ (notes : List (String × String × ℚ)) (st : SMState),
      WFa (fun g : SMSegment => g.speaker) st.activeSegments →
      WFa (fun g : SMSegment => g.speaker)
        (runSMCaptions st notes).activeSegments := by
  intro notes
  induction notes with
  | nil => intro st h; exact h
  | cons n t ih =>
    intro st h
    rw [runSMCaptions_cons]
    exact ih _ (addCaption_wfa st n.1 n.2.1 n.2.2 h)

lemma runSMCaptions_lookup :
    ∀ (notes : List (String × String × ℚ)) (st : SMState) (s : String),
      lookupA (runSMCaptions st notes).activeSegments s
        = smTrack s (lookupA st.activeSegments s) notes := by
  intro notes
  induction notes with
  | nil => intro st s; rfl
  | cons n t ih =>
    intro st s
    rw [runSMCaptions_cons, ih]
    show smTrack s (lookupA (addCaption st n.1 n.2.1 n.2.2).activeSegments s) t
      = smTrack s (smStepTrack s (lookupA st.activeSegments s) n) t
    rw [addCaption_lookup st n.1 n.2.1 n.2.2 s]

lemma smStepTrack_ne {s : String} {cur : Option SMSegment}
    {n : String × String × ℚ} (h : ¬(n.1 = s)) :
    smStepTrack s cur n = cur := by
  simp [smStepTrack, h]

lemma smTrack_filter (s : String) :
    ∀ (notes : List (String × String × ℚ)) (cur : Option SMSegment),
      smTrack s cur notes = smTrack s cur (obsFor s notes) := by
  intro notes
  induction notes with
  | nil => intro cur; rfl
  | cons n t ih =>
    intro cur
    by_cases h : n.1 = s
    · rw [obsFor_cons_self t h]
      exact ih (smStepTrack s cur n)
    · rw [obsFor_cons_ne t h]
      show smTrack s (smStepTrack s cur n) t = _
      rw [smStepTrack_ne h]
      exact ih cur

lemma smTrack_all (s : String) :
    ∀ (l : List (String × String × ℚ)) (seg : SMSegment),
      (∀ x ∈ l, x.1 = s) →
      smTrack s (some seg) l
        = some ⟨seg.speaker, (l.map (fun x => x.2.1)).getLastD seg.text,
            seg.start, (l.map (fun x => x.2.2)).getLastD seg.stop⟩ := by
  intro l
  induction l with
  | nil => intro seg _; rfl
  | cons n t ih =>
    intro seg hall
    have hn : n.1 = s := hall n (List.mem_cons_self _ _)
    have hstep : smStepTrack s (some seg) n
        = some { seg with text := n.2.1, stop := n.2.2 } := by
      simp [smStepTrack, hn]
    show smTrack s (smStepTrack s (some seg) n) t = _
    rw [hstep, ih _ (fun x hx => hall x (List.mem_cons_of_mem _ hx))]
    simp only [List.map_cons, List.getLastD_cons]

/-- The `SegmentManager` part of the per-speaker aggregation property:
from a fresh manager, after any observation run, each speaker that was
observed has exactly one segment — still active — whose text is the last
observed text, whose start is the elapsed time of the speaker's first
observation, and whose end is the elapsed time of the last. -/
lemma sm_per_speaker (notes : List (String × String × ℚ)) (s : String)
    (n : String × String × ℚ) (t : List (String × String × ℚ))
    (hobs : obsFor s notes = n :: t) :
    (getAllSegments (runSMCaptions smInit notes)).filter
        (fun g => g.speaker = s)
      = [⟨s, ((n :: t).map (fun x => x.2.1)).getLastD "", n.2.2,
          ((n :: t).map (fun x => x.2.2)).getLastD 0⟩] := by
  have hn : n.1 = s := obsFor_keys n (hobs ▸ List.mem_cons_self n t)
  have hwf := runSMCaptions_wfa notes smInit
    (wfa_nil (fun g : SMSegment => g.speaker))
  have hseg : (runSMCaptions smInit notes).segments = [] :=
    runSMCaptions_segments notes smInit
  have hstep : smStepTrack s none n = some ⟨s, n.2.1, n.2.2, n.2.2⟩ := by
    simp [smStepTrack, hn]
  have hlook : lookupA (runSMCaptions smInit notes).activeSegments s
      = some ⟨s, ((n :: t).map (fun x => x.2.1)).getLastD "", n.2.2,
          ((n :: t).map (fun x => x.2.2)).getLastD 0⟩ := by
    rw [runSMCaptions_lookup notes smInit s]
    show smTrack s none notes = _
    rw [smTrack_filter s notes none, hobs]
    show smTrack s (smStepTrack s none n) t = _
    rw [hstep, smTrack_all s t _
      (fun x hx => obsFor_keys x (hobs ▸ List.mem_cons_of_mem n hx))]
    simp only [List.map_cons, List.getLastD_cons]
  show ((runSMCaptions smInit notes).segments
      ++ (runSMCaptions smInit notes).activeSegments.map Prod.snd).filter
        (fun g => g.speaker = s) = _
  rw [hseg, List.nil_append]
  exact wfa_filter_some _ s _ hwf hlook

/-! ### Per-speaker aggregation (C1 amended): content-script evolution -/

lemma processCaption_accepted_eq (st st2 : CJState) (sp raw : String)
    (e : ℚ) (h : processCaption st sp raw e = (st2, .accepted)) :
    st2 = acceptCaption st sp (jsTrim raw) e := by
  simp only [processCaption] at h
  split at h
  · simp at h
  · split at h
    · simp at h
    · split at h
      · simp at h
      · split at h
        · simp at h
        · split at h
          · simp at h
          · simp only [Prod.mk.injEq] at h
            exact h.1.symm

lemma acceptMerge_merge (active : List (String × CJSegment))
    (sp text : String) (segment existing : CJSegment)
    (hl : lookupA active sp = some existing)
    (hpre : jsStartsWith text (jsSubstringTo existing.text 20) = true) :
    acceptMerge active sp text segment
      = ([], updateA active sp
          { existing with
            text := text,
            stop := segment.stop,
            wordCount := segment.wordCount }) := by
  unfold acceptMerge
  rw [hl]
  dsimp only
  rw [if_pos hpre]

lemma acceptMerge_create (active : List (String × CJSegment))
    (sp text : String) (segment : CJSegment)
    (hl : lookupA active sp = none) :
    acceptMerge active sp text segment = ([], active ++ [(sp, segment)]) := by
  unfold acceptMerge
  rw [hl]

lemma strictExtend_merge (a b : String) (h : a.data <+: b.data) :
    jsStartsWith b (jsSubstringTo a 20) = true := by
  unfold jsStartsWith jsSubstringTo
  exact List.isPrefixOf_iff_prefix.mpr ((List.take_prefix 20 a.data).trans h)

lemma acceptCaption_segments_of_merge (st : CJState) (sp text : String)
    (e : ℚ) (existing : CJSegment)
    (hl : lookupA st.activeSegments sp = some existing)
    (hpre : jsStartsWith text (jsSubstringTo existing.text 20) = true) :
    (acceptCaption st sp text e).segments = st.segments := by
  show st.segments
    ++ (acceptMerge st.activeSegments sp text
        (candidateSegment st sp text e)).1 = st.segments
  rw [acceptMerge_merge st.activeSegments sp text _ existing hl hpre]
  exact List.append_nil _

lemma acceptCaption_active_of_merge (st : CJState) (sp text : String)
    (e : ℚ) (existing : CJSegment)
    (hl : lookupA st.activeSegments sp = some existing)
    (hpre : jsStartsWith text (jsSubstringTo existing.text 20) = true) :
    (acceptCaption st sp text e).activeSegments
      = updateA st.activeSegments sp
          { existing with
            text := text,
            stop := e,
            wordCount := jsWordCount text } := by
  show (acceptMerge st.activeSegments sp text
      (candidateSegment st sp text e)).2 = _
  rw [acceptMerge_merge st.activeSegments sp text _ existing hl hpre]
  rfl

lemma acceptCaption_segments_of_create (st : CJState) (sp text : String)
    (e : ℚ) (hl : lookupA st.activeSegments sp = none) :
    (acceptCaption st sp text e).segments = st.segments := by
  show st.segments
    ++ (acceptMerge st.activeSegments sp text
        (candidateSegment st sp text e)).1 = st.segments
  rw [acceptMerge_create st.activeSegments sp text _ hl]
  exact List.append_nil _

lemma acceptCaption_active_of_create (st : CJState) (sp text : String)
    (e : ℚ) (hl : lookupA st.activeSegments sp = none) :
    (acceptCaption st sp text e).activeSegments
      = st.activeSegments ++ [(sp, candidateSegment st sp text e)] := by
  show (acceptMerge st.activeSegments sp text
      (candidateSegment st sp text e)).2 = _
  rw [acceptMerge_create st.activeSegments sp text _ hl]

lemma cjTrackRel_cons_some (seg newEntry : CJSegment)
    (n : String × String × ℚ) (t : List (String × String × ℚ))
    (res : Option CJSegment)
    (hsp : newEntry.speaker = seg.speaker) (hst : newEntry.start = seg.start)
    (htx : newEntry.text = n.2.1) (hstop : newEntry.stop = n.2.2)
    (hrel : cjTrackRel (some newEntry) t res) :
    cjTrackRel (some seg) (n :: t) res := by
  cases t with
  | nil =>
    simp only [cjTrackRel] at hrel ⊢
    refine ⟨newEntry, hrel, hsp, hst, ?_, ?_⟩
    · simp only [List.map_cons, List.map_nil, List.getLastD_cons,
        List.getLastD_nil]
      exact htx
    · simp only [List.map_cons, List.map_nil, List.getLastD_cons,
        List.getLastD_nil]
      exact hstop
  | cons m t2 =>
    simp only [cjTrackRel] at hrel ⊢
    obtain ⟨g, hres, h1, h2, h3, h4⟩ := hrel
    refine ⟨g, hres, h1.trans hsp, h2.trans hst, ?_, ?_⟩
    · rw [h3]
      simp only [List.map_cons, List.getLastD_cons]
    · rw [h4]
      simp only [List.map_cons, List.getLastD_cons]

lemma cjTrackRel_cons_none (newEntry : CJSegment)
    (n : String × String × ℚ) (t : List (String × String × ℚ))
    (res : Option CJSegment)
    (hsp : newEntry.speaker = n.1)
    (hst : newEntry.start
      = max 0 (n.2.2 - max 1 ((jsWordCount n.2.1 : ℚ) / (5 / 2))))
    (htx : newEntry.text = n.2.1) (hstop : newEntry.stop = n.2.2)
    (hrel : cjTrackRel (some newEntry) t res) :
    cjTrackRel none (n :: t) res := by
  cases t with
  | nil =>
    simp only [cjTrackRel] at hrel ⊢
    refine ⟨newEntry, hrel, hsp, hst, ?_, ?_⟩
    · simp only [List.map_cons, List.map_nil, List.getLastD_cons,
        List.getLastD_nil]
      exact htx
    · simp only [List.map_cons, List.map_nil, List.getLastD_cons,
        List.getLastD_nil]
      exact hstop
  | cons m t2 =>
    simp only [cjTrackRel] at hrel ⊢
    obtain ⟨g, hres, h1, h2, h3, h4⟩ := hrel
    refine ⟨g, hres, h1.trans hsp, h2.trans hst, ?_, ?_⟩
    · rw [h3]
      simp only [List.map_cons, List.getLastD_cons]
    · rw [h4]
      simp only [List.map_cons, List.getLastD_cons]

@[simp] lemma textsOf_none : textsOf none = [] := rfl

@[simp] lemma textsOf_some (seg : CJSegment) :
    textsOf (some seg) = [seg.text] := rfl

@[simp] lemma candidateSegment_speaker (st : CJState) (sp text : String)
    (e : ℚ) : (candidateSegment st sp text e).speaker = sp := rfl

@[simp] lemma candidateSegment_text (st : CJState) (sp text : String)
    (e : ℚ) : (candidateSegment st sp text e).text = text := rfl

@[simp] lemma candidateSegment_stop (st : CJState) (sp text : String)
    (e : ℚ) : (candidateSegment st sp text e).stop = e := rfl

lemma candidateSegment_start (st : CJState) (sp text : String) (e : ℚ) :
    (candidateSegment st sp text e).start
      = max 0 (e - max 1 ((jsWordCount text : ℚ) / (5 / 2))) := rfl

/-- The generalized induction behind the per-speaker aggregation property
of `processCaption`: along a run in which every observation is accepted,
whose texts are trimmed, and in which each speaker's texts strictly extend
one another (starting from that speaker's current active text, if any), the
finalized list never grows, the active map stays well-formed, and each
speaker's active entry evolves as described by `cjTrackRel`. -/
lemma acceptedRun_track :
    ∀ (notes : List (String × String × ℚ)) (st st' : CJState),
      acceptedRun st notes = some st' →
      (∀ x ∈ notes, jsTrim x.2.1 = x.2.1) →
      WFa (fun g : CJSegment => g.speaker) st.activeSegments →
      (∀ s, List.Chain' strictExtend
        (textsOf (lookupA st.activeSegments s)
          ++ (obsFor s notes).map (fun x => x.2.1))) →
      st'.segments = st.segments ∧
      WFa (fun g : CJSegment => g.speaker) st'.activeSegments ∧
      ∀ s, cjTrackRel (lookupA st.activeSegments s) (obsFor s notes)
        (lookupA st'.activeSegments s) := by
  intro notes
  induction notes with
  | nil =>
    intro st st' h _ hwf _
    simp only [acceptedRun, Option.some.injEq] at h
    subst h
    refine ⟨rfl, hwf, fun s => ?_⟩
    rw [obsFor_nil]
    rfl
  | cons n rest ih =>
    intro st st' h htrim hwf hchain
    rcases hstep : processCaption st n.1 n.2.1 n.2.2 with ⟨st1, out⟩
    simp only [acceptedRun] at h
    rw [hstep] at h
    cases out with
    | rejected => simp at h
    | exitTriggered => simp at h
    | accepted =>
      replace h : acceptedRun st1 rest = some st' := h
      have heq : st1 = acceptCaption st n.1 n.2.1 n.2.2 := by
        have h0 := processCaption_accepted_eq st st1 n.1 n.2.1 n.2.2 hstep
        rwa [htrim n (List.mem_cons_self _ _)] at h0
      subst heq
      have htrim1 : ∀ x ∈ rest, jsTrim x.2.1 = x.2.1 :=
        fun x hx => htrim x (List.mem_cons_of_mem _ hx)
      cases hl : lookupA st.activeSegments n.1 with
      | some existing =>
        have hch := hchain n.1
        rw [hl, obsFor_cons_self rest rfl] at hch
        simp only [textsOf_some, List.map_cons, List.singleton_append] at hch
        have hsplit := List.chain'_cons.mp hch
        have hpre : jsStartsWith n.2.1 (jsSubstringTo existing.text 20)
            = true := strictExtend_merge _ _ hsplit.1.1
        have hseg1 := acceptCaption_segments_of_merge st n.1 n.2.1 n.2.2
          existing hl hpre
        have hact1 := acceptCaption_active_of_merge st n.1 n.2.1 n.2.2
          existing hl hpre
        have hspk : existing.speaker = n.1 :=
          hwf.2 (n.1, existing) (lookupA_mem _ _ _ hl)
        have hwf1 : WFa (fun g : CJSegment => g.speaker)
            (acceptCaption st n.1 n.2.1 n.2.2).activeSegments := by
          rw [hact1]
          exact wfa_updateA hwf hspk
        have hchain1 : ∀ s, List.Chain' strictExtend
            (textsOf (lookupA
                (acceptCaption st n.1 n.2.1 n.2.2).activeSegments s)
              ++ (obsFor s rest).map (fun x => x.2.1)) := by
          intro s
          by_cases hs : s = n.1
          · subst hs
            rw [hact1, lookupA_updateA_self _ _ _ existing hl]
            simpa only [textsOf_some, List.singleton_append] using hsplit.2
          · have hs2 : ¬(n.1 = s) := fun he => hs he.symm
            rw [hact1, lookupA_updateA_ne _ _ _ _ hs]
            have hcs := hchain s
            rw [obsFor_cons_ne rest hs2] at hcs
            exact hcs
        obtain ⟨ihseg, ihwf, ihrel⟩ :=
          ih (acceptCaption st n.1 n.2.1 n.2.2) st' h htrim1 hwf1 hchain1
        refine ⟨ihseg.trans hseg1, ihwf, fun s => ?_⟩
        by_cases hs : s = n.1
        · subst hs
          rw [hl, obsFor_cons_self rest rfl]
          have hr := ihrel n.1
          rw [hact1, lookupA_updateA_self _ _ _ existing hl] at hr
          exact cjTrackRel_cons_some existing
            { existing with
              text := n.2.1,
              stop := n.2.2,
              wordCount := jsWordCount n.2.1 }
            n (obsFor n.1 rest) _ rfl rfl rfl rfl hr
        · have hs2 : ¬(n.1 = s) := fun he => hs he.symm
          rw [obsFor_cons_ne rest hs2]
          have hr := ihrel s
          rw [hact1, lookupA_updateA_ne _ _ _ _ hs] at hr
          exact hr
      | none =>
        have hseg1 := acceptCaption_segments_of_create st n.1 n.2.1 n.2.2 hl
        have hact1 := acceptCaption_active_of_create st n.1 n.2.1 n.2.2 hl
        have hwf1 : WFa (fun g : CJSegment => g.speaker)
            (acceptCaption st n.1 n.2.1 n.2.2).activeSegments := by
          rw [hact1]
          exact wfa_append hwf hl rfl
        have hchain1 : ∀ s, List.Chain' strictExtend
            (textsOf (lookupA
                (acceptCaption st n.1 n.2.1 n.2.2).activeSegments s)
              ++ (obsFor s rest).map (fun x => x.2.1)) := by
          intro s
          by_cases hs : s = n.1
          · subst hs
            rw [hact1, lookupA_append_self _ _ _ hl]
            have hcs := hchain n.1
            rw [hl, obsFor_cons_self rest rfl] at hcs
            simpa only [textsOf_some, textsOf_none, candidateSegment_text,
              List.singleton_append, List.nil_append, List.map_cons]
              using hcs
          · have hs2 : ¬(n.1 = s) := fun he => hs he.symm
            rw [hact1, lookupA_append_ne _ _ _ _ hs]
            have hcs := hchain s
            rw [obsFor_cons_ne rest hs2] at hcs
            exact hcs
        obtain ⟨ihseg, ihwf, ihrel⟩ :=
          ih (acceptCaption st n.1 n.2.1 n.2.2) st' h htrim1 hwf1 hchain1
        refine ⟨ihseg.trans hseg1, ihwf, fun s => ?_⟩
        by_cases hs : s = n.1
        · subst hs
          rw [hl, obsFor_cons_self rest rfl]
          have hr := ihrel n.1
          rw [hact1, lookupA_append_self _ _ _ hl] at hr
          exact cjTrackRel_cons_none _ n (obsFor n.1 rest) _
            (candidateSegment_speaker st n.1 n.2.1 n.2.2)
            (candidateSegment_start st n.1 n.2.1 n.2.2)
            (candidateSegment_text st n.1 n.2.1 n.2.2)
            (candidateSegment_stop st n.1 n.2.1 n.2.2) hr
        · have hs2 : ¬(n.1 = s) := fun he => hs he.symm
          rw [obsFor_cons_ne rest hs2]
          have hr := ihrel s
          rw [hact1, lookupA_append_ne _ _ _ _ hs] at hr
          exact hr

/-- C1 amended: for every observation sequence in which each accepted text
for a given speaker strictly extends that speaker's previously accepted
text (texts being the trimmed caption texts), both aggregators produce
exactly one segment for that speaker at session end, whose text is the
last observed text and whose end is the elapsed time of the last
observation. `SegmentManager.addCaption` records `start` as the elapsed
time of the speaker's first observation, while content.js `processCaption`
records the backdated estimate
`max(0, firstElapsed - max(1, wordCount(firstText)/2.5))`. -/
theorem c1_per_speaker_aggregation
    (notes : List (String × String × ℚ)) (st' : CJState)
    (h : acceptedRun recordingInit notes = some st')
    (htrim : ∀ x ∈ notes, jsTrim x.2.1 = x.2.1)
    (hchain : ∀ s, List.Chain' strictExtend
      ((obsFor s notes).map (fun x => x.2.1))) :
    ∀ (s : String) (n : String × String × ℚ)
      (t : List (String × String × ℚ)), obsFor s notes = n :: t →
      (∃ g, (finalSegmentsCJ st').filter (fun x => x.speaker = s) = [g] ∧
        g.text = ((n :: t).map (fun x => x.2.1)).getLastD "" ∧
        g.stop = ((n :: t).map (fun x => x.2.2)).getLastD 0 ∧
        g.start
          = max 0 (n.2.2 - max 1 ((jsWordCount n.2.1 : ℚ) / (5 / 2)))) ∧
      (getAllSegments (runSMCaptions smInit notes)).filter
          (fun x => x.speaker = s)
        = [⟨s, ((n :: t).map (fun x => x.2.1)).getLastD "", n.2.2,
            ((n :: t).map (fun x => x.2.2)).getLastD 0⟩] := by
  intro s n t hobs
  constructor
  · have hchain0 : ∀ s2, List.Chain' strictExtend
        (textsOf (lookupA recordingInit.activeSegments s2)
          ++ (obsFor s2 notes).map (fun x => x.2.1)) := by
      intro s2
      have hcur : lookupA recordingInit.activeSegments s2 = none := rfl
      rw [hcur, textsOf_none, List.nil_append]
      exact hchain s2
    obtain ⟨hseg, hwf, hrel⟩ := acceptedRun_track notes recordingInit st' h
      htrim (wfa_nil _) hchain0
    have hr := hrel s
    have hcur : lookupA recordingInit.activeSegments s = none := rfl
    rw [hobs, hcur] at hr
    simp only [cjTrackRel] at hr
    obtain ⟨g, hlook, hgsp, hgstart, hgtext, hgstop⟩ := hr
    refine ⟨g, ?_, hgtext, hgstop, hgstart⟩
    show (st'.segments ++ st'.activeSegments.map Prod.snd).filter
        (fun x => x.speaker = s) = [g]
    have hnil : recordingInit.segments = [] := rfl
    rw [hseg, hnil, List.nil_append]
    exact wfa_filter_some _ s g hwf hlook
  · exact sm_per_speaker notes s n t hobs

set_option maxHeartbeats 4000000 in
theorem c1_per_speaker_aggregation_witness :
    (acceptedRun recordingInit
        [("Alice", "Good morning", 1), ("Alice", "Good morning all", 2)]
      = some ((acceptedRun recordingInit
          [("Alice", "Good morning", 1),
           ("Alice", "Good morning all", 2)]).getD recordingInit)) ∧
    ((∃ g, (finalSegmentsCJ ((acceptedRun recordingInit
          [("Alice", "Good morning", 1),
           ("Alice", "Good morning all", 2)]).getD recordingInit)).filter
            (fun x => x.speaker = "Alice") = [g] ∧
        g.text = (([("Alice", "Good morning", (1 : ℚ)),
            ("Alice", "Good morning all", 2)]).map
              (fun x => x.2.1)).getLastD "" ∧
        g.stop = (([("Alice", "Good morning", (1 : ℚ)),
            ("Alice", "Good morning all", 2)]).map
              (fun x => x.2.2)).getLastD 0 ∧
        g.start = max 0 ((1 : ℚ)
          - max 1 ((jsWordCount "Good morning" : ℚ) / (5 / 2)))) ∧
      (getAllSegments (runSMCaptions smInit
          [("Alice", "Good morning", 1),
           ("Alice", "Good morning all", 2)])).filter
          (fun x => x.speaker = "Alice")
        = [⟨"Alice", (([("Alice", "Good morning", (1 : ℚ)),
              ("Alice", "Good morning all", 2)]).map
                (fun x => x.2.1)).getLastD "", 1,
            (([("Alice", "Good morning", (1 : ℚ)),
              ("Alice", "Good morning all", 2)]).map
                (fun x => x.2.2)).getLastD 0⟩]) := by
  have hchain : ∀ s, List.Chain' strictExtend
      ((obsFor s [("Alice", "Good morning", (1 : ℚ)),
        ("Alice", "Good morning all", 2)]).map (fun x => x.2.1)) := by
    intro s
    by_cases hs : s = "Alice"
    · subst hs
      have hext : strictExtend "Good morning" "Good morning all" :=
        ⟨⟨" all".data, by decide⟩, by decide⟩
      show List.Chain' strictExtend ["Good morning", "Good morning all"]
      exact List.chain'_cons.mpr ⟨hext, List.chain'_singleton _⟩
    · rw [obsFor_cons_ne _ (fun he => hs he.symm),
        obsFor_cons_ne _ (fun he => hs he.symm), obsFor_nil, List.map_nil]
      exact List.chain'_nil
  refine ⟨by with_unfolding_all decide, ?_⟩
  exact c1_per_speaker_aggregation
    [("Alice", "Good morning", 1), ("Alice", "Good morning all", 2)]
    ((acceptedRun recordingInit
      [("Alice", "Good morning", 1),
       ("Alice", "Good morning all", 2)]).getD recordingInit)
    (by with_unfolding_all decide)
    (by with_unfolding_all decide) hchain "Alice"
    ("Alice", "Good morning", 1) [("Alice", "Good morning all", 2)]
    (by with_unfolding_all decide)

theorem c10_orchestrator_append_only_witness :
    parseCaptionLog "abc [Caption] Alice: hi all" = some ("Alice", "hi all") ∧
    parseExtensionLogSegments [] "abc [Caption] Alice: hi all" 2000
      = [⟨"Alice", "hi all", 2000 / 1000, 2000 / 1000⟩] ∧
    handleCompletion [⟨"A", "x", 0, 0⟩] [⟨"B", "y", 1, 2⟩]
      = [⟨"B", "y", 1, 2⟩] := by
  have hp : parseCaptionLog "abc [Caption] Alice: hi all"
      = some ("Alice", "hi all") := by decide
  refine ⟨hp, ?_, ?_⟩
  · simpa using
      c10_orchestrator_append_only.2.1 [] "abc [Caption] Alice: hi all" 2000
        "Alice" "hi all" hp
  · simpa using
      c10_orchestrator_append_only.2.2.1 [⟨"A", "x", 0, 0⟩] [⟨"B", "y", 1, 2⟩]
        (by simp)

end NotuBot
